import Mathlib

/-!
Shallow embedding of the tsping measurement pipeline (Go sources:
src/main.go and the two iterative variants src/unnamed/part_000,
src/unnamed/part_001) together with theorems settling the frozen claims
about its specification.

Strings are modelled through their character lists (`String.data`); the
relevant Go string helpers (`strings.Split`, `strings.Fields`,
`strings.TrimSpace`, `strings.Contains`, `strings.HasPrefix`, byte-wise
string comparison) are re-implemented below on `List Char`, which
coincides with Go's byte-wise behaviour on the ASCII data this program
manipulates.
-/

namespace TsPing

/-- ASCII whitespace, the fragment of `unicode.IsSpace` exercised by the
line-oriented command output this program parses. -/
def isSpc (c : Char) : Bool :=
  c = ' ' || c = '\t' || c = '\n' || c = '\x0b' || c = '\x0c' || c = '\r'

/-- Auxiliary splitter: Go `strings.Split(s, sep)` for a one-character
separator, accumulating the current chunk in reverse. -/
def splitOnCharAux (c : Char) : List Char → List Char → List (List Char)
  | [], acc => [acc.reverse]
  | x :: xs, acc =>
    if x = c then acc.reverse :: splitOnCharAux c xs []
    else splitOnCharAux c xs (x :: acc)

/-- Go `strings.Split(s, string(c))`: split on every occurrence of `c`,
keeping empty chunks (`Split "a\nb\n" '\n' = ["a","b",""]`). -/
def splitOnChar (c : Char) (l : List Char) : List (List Char) :=
  splitOnCharAux c l []

/-- Go `strings.Fields`: split on runs of whitespace, dropping empty
fields. -/
def fieldsAux : List Char → List Char → List (List Char)
  | [], acc => if acc.isEmpty then [] else [acc.reverse]
  | x :: xs, acc =>
    if isSpc x then
      if acc.isEmpty then fieldsAux xs [] else acc.reverse :: fieldsAux xs []
    else fieldsAux xs (x :: acc)

/-- Go `strings.Fields` entry point. -/
def fieldsOf (l : List Char) : List (List Char) :=
  fieldsAux l []

/-- Go `strings.TrimSpace` (ASCII fragment). -/
def trimSpc (l : List Char) : List Char :=
  ((l.dropWhile isSpc).reverse.dropWhile isSpc).reverse

/-- Does `s` start with `pat`?  Go `strings.HasPrefix`. -/
def startsWithPat : List Char → List Char → Bool
  | _, [] => true
  | [], _ :: _ => false
  | a :: as, b :: bs => a = b && startsWithPat as bs

/-- Does `s` contain `pat` as a contiguous substring?  Go
`strings.Contains`. -/
def containsPat : List Char → List Char → Bool
  | [], pat => startsWithPat [] pat
  | a :: t, pat => startsWithPat (a :: t) pat || containsPat t pat

/-- Go string comparison `s < t`: byte-wise lexicographic order.  On the
strings this program compares (ASCII group labels and the empty string)
byte order and Unicode-code-point order coincide, so we compare
characters. -/
def listLess : List Char → List Char → Bool
  | [], [] => false
  | [], _ :: _ => true
  | _ :: _, [] => false
  | a :: as, b :: bs => if a = b then listLess as bs else decide (a < b)

/-- Go `s < t` on `String`. -/
def strLess (a b : String) : Bool :=
  listLess a.data b.data

/-- Join a list of chunks with a single-character separator, Go
`strings.Join(fields, " ")` specialised to the one-char separators used
here. -/
def joinWithChar (c : Char) : List (List Char) → List Char
  | [] => []
  | [x] => x
  | x :: y :: rest => x ++ c :: joinWithChar c (y :: rest)

/-- Numeric value of a digit run (most significant first), accumulator
form. -/
def digitsValAux : Nat → List Char → Nat
  | acc, [] => acc
  | acc, c :: cs => digitsValAux (acc * 10 + (c.toNat - 48)) cs

/-- Numeric value of a digit run. -/
def digitsVal (l : List Char) : Nat :=
  digitsValAux 0 l

/-! ## IP classification (`isPublicIP` in src/main.go, lines 201-224)

`net.ParseIP` is embedded in its IPv4 dotted-quad fragment, the only
form the surrounding pipeline can produce (egress IPs come from the
regex `\d+\.\d+\.\d+\.\d+`): four non-empty decimal fields, each without
a leading zero and at most 255.  IPv6 textual forms are outside this
embedding. -/

/-- One dotted-quad field as accepted by `net.ParseIP`: non-empty, all
digits, no leading zero (except the field "0" itself), value ≤ 255. -/
def isOctetField (f : List Char) : Bool :=
  !f.isEmpty && f.all Char.isDigit &&
    (f.length = 1 || f.headD ' ' ≠ '0') && decide (digitsVal f ≤ 255)

/-- `net.ParseIP` restricted to dotted-quad IPv4 strings: the four octet
values, or `none` when the string is not a valid IPv4 address. -/
def parseIPv4 (s : String) : Option (Nat × Nat × Nat × Nat) :=
  match splitOnChar '.' s.data with
  | [a, b, c, d] =>
    if isOctetField a && isOctetField b && isOctetField c && isOctetField d then
      some (digitsVal a, digitsVal b, digitsVal c, digitsVal d)
    else none
  | _ => none

/-- The 32-bit numeric value of an IPv4 quad. -/
def ipNum (q : Nat × Nat × Nat × Nat) : Nat :=
  ((q.1 * 256 + q.2.1) * 256 + q.2.2.1) * 256 + q.2.2.2

/-- `(*net.IPNet).Contains` for an IPv4 CIDR block: the ip and the block
base agree on the top `bits` bits. -/
def inBlock (ip base bits : Nat) : Bool :=
  decide (ip / 2 ^ (32 - bits) = base / 2 ^ (32 - bits))

/-- The `privateBlocks` CIDR list of `isPublicIP`, as (numeric base,
prefix length) pairs: 10.0.0.0/8, 127.0.0.0/8, 172.16.0.0/12,
192.168.0.0/16, 169.254.0.0/16, 100.64.0.0/10. -/
def privateBlocks : List (Nat × Nat) :=
  [(ipNum (10, 0, 0, 0), 8),
   (ipNum (127, 0, 0, 0), 8),
   (ipNum (172, 16, 0, 0), 12),
   (ipNum (192, 168, 0, 0), 16),
   (ipNum (169, 254, 0, 0), 16),
   (ipNum (100, 64, 0, 0), 10)]

/-- `isPublicIP` (src/main.go lines 201-224): parse the address; if it
parses, it is public exactly when no private block contains it. -/
def isPublicIP (s : String) : Bool :=
  match parseIPv4 s with
  | none => false
  | some q => !(privateBlocks.any fun bp => inBlock (ipNum q) bp.1 bp.2)

/-- The specification's wording of the reserved ranges (spec §4.5), as
octet-range conditions on the parsed quad: 10/8, 127/8, 172.16/12,
192.168/16, 169.254/16, 100.64/10. -/
def specReserved (q : Nat × Nat × Nat × Nat) : Prop :=
  q.1 = 10 ∨ q.1 = 127 ∨
  (q.1 = 172 ∧ 16 ≤ q.2.1 ∧ q.2.1 ≤ 31) ∨
  (q.1 = 192 ∧ q.2.1 = 168) ∨
  (q.1 = 169 ∧ q.2.1 = 254) ∨
  (q.1 = 100 ∧ 64 ≤ q.2.1 ∧ q.2.1 ≤ 127)

/-- The specification's notion of "public": syntactically valid and not
contained in any reserved range (spec §4.5, written from the spec's
words for comparison with `isPublicIP`). -/
def specPublic (s : String) : Prop :=
  ∃ q, parseIPv4 s = some q ∧ ¬ specReserved q

/-! ## Mean latency (`calculateAverage`, src/main.go lines 226-238)

`strconv.Atoi` is embedded as `goAtoi`; Go's 64-bit `int` addition
wraps, embedded as `wrap64`.  The resulting `float64` division of an
integer sum by a small integer count is abstracted as exact rational
division (`ℚ`); no claim depends on float rounding of the quotient. -/

/-- Two's-complement wrap-around of Go's 64-bit `int` addition. -/
def wrap64 (x : Int) : Int :=
  (x + 2 ^ 63) % 2 ^ 64 - 2 ^ 63

/-- `strconv.Atoi`: optional sign, a non-empty run of decimal digits,
error (here `none`) on anything else or on a value outside the 64-bit
signed range. -/
def goAtoi (s : String) : Option Int :=
  match s.data with
  | [] => none
  | '+' :: ds =>
    if !ds.isEmpty && ds.all Char.isDigit && decide ((digitsVal ds : Int) ≤ 2 ^ 63 - 1) then
      some (digitsVal ds)
    else none
  | '-' :: ds =>
    if !ds.isEmpty && ds.all Char.isDigit && decide ((digitsVal ds : Int) ≤ 2 ^ 63) then
      some (-(digitsVal ds : Int))
    else none
  | ds =>
    if ds.all Char.isDigit && decide ((digitsVal ds : Int) ≤ 2 ^ 63 - 1) then
      some (digitsVal ds)
    else none

/-- The summation loop of `calculateAverage`: `sum += val` for every
sample that `strconv.Atoi` parses, unparsable samples skipped, 64-bit
wrap-around on each addition. -/
def pingSum : List String → Int → Int
  | [], acc => acc
  | p :: ps, acc =>
    match goAtoi p with
    | some v => pingSum ps (wrap64 (acc + v))
    | none => pingSum ps acc

/-- `calculateAverage` (src/main.go lines 226-238): divide the loop's
sum by the length of the whole sample list; an empty list yields 0. -/
def calculateAverage (pings : List String) : ℚ :=
  let s := pingSum pings 0
  if pings.length = 0 then 0 else (s : ℚ) / (pings.length : ℚ)

/-- The successfully parsed integer samples of a sample list (the
samples `strconv.Atoi` accepts, in order). -/
def parsedSamples (pings : List String) : List Int :=
  pings.filterMap goAtoi

/-- The specification's wording of the mean (spec §4.5, written from
the spec's words for comparison with `calculateAverage`): the
arithmetic mean of all successfully parsed samples, 0 for an empty
sample sequence. -/
def specMean (pings : List String) : ℚ :=
  if (parsedSamples pings).length = 0 then 0
  else ((parsedSamples pings).sum : ℚ) / ((parsedSamples pings).length : ℚ)

/-! ## Probe output parsing (`pingIP`, src/main.go lines 155-199)

The two regular expressions are embedded directly.  Both
`via (\d+\.\d+\.\d+\.\d+):(\d+)` and `in (\d+)ms` consist of literal
characters and greedy digit runs each followed by a non-digit literal
(or nothing), so RE2's leftmost-first `FindStringSubmatch` coincides
with: scan positions left to right, and at each position take maximal
digit runs — no backtracking case remains.  `FindStringSubmatch`
returns only the first match of a line. -/

/-- Maximal digit run at the front of `l`, with the rest. -/
def takeDigitRun (l : List Char) : List Char × List Char :=
  (l.takeWhile Char.isDigit, l.dropWhile Char.isDigit)

/-- Try to match `in (\d+)ms` exactly at the head of `l`; returns the
captured digit run. -/
def inMsAt (l : List Char) : Option (List Char) :=
  match l with
  | 'i' :: 'n' :: ' ' :: rest =>
    let ds := (takeDigitRun rest).1
    if !ds.isEmpty && startsWithPat (takeDigitRun rest).2 ['m', 's'] then some ds
    else none
  | _ => none

/-- Try to match the tail `(\d+\.\d+\.\d+\.\d+):(\d+)` exactly at the
head of `l` (after the literal "via "); returns (ip capture, port
capture). -/
def viaTail (l : List Char) : Option (List Char × List Char) :=
  let p1 := takeDigitRun l
  if p1.1.isEmpty then none else
  match p1.2 with
  | '.' :: r1 =>
    let p2 := takeDigitRun r1
    if p2.1.isEmpty then none else
    match p2.2 with
    | '.' :: r2 =>
      let p3 := takeDigitRun r2
      if p3.1.isEmpty then none else
      match p3.2 with
      | '.' :: r3 =>
        let p4 := takeDigitRun r3
        if p4.1.isEmpty then none else
        match p4.2 with
        | ':' :: r4 =>
          let pp := takeDigitRun r4
          if pp.1.isEmpty then none
          else some (p1.1 ++ '.' :: p2.1 ++ '.' :: p3.1 ++ '.' :: p4.1, pp.1)
        | _ => none
      | _ => none
    | _ => none
  | _ => none

/-- Try to match `via (\d+\.\d+\.\d+\.\d+):(\d+)` exactly at the head
of `l`. -/
def viaAt (l : List Char) : Option (List Char × List Char) :=
  match l with
  | 'v' :: 'i' :: 'a' :: ' ' :: rest => viaTail rest
  | _ => none

/-- Leftmost match: try `f` at every position of `l`, left to right
(`regexp.FindStringSubmatch`). -/
def scanFirst {α : Type} (f : List Char → Option α) : List Char → Option α
  | [] => f []
  | a :: t =>
    match f (a :: t) with
    | some r => some r
    | none => scanFirst f t

/-- The peer record of src/main.go (`PingResult`).  The `isp` field is
filled from the external geolocation lookup, which is outside the
embedding; the claims treat it as opaque. -/
structure PingResult where
  ip : String := ""
  hostname : String := ""
  user : String := ""
  os : String := ""
  externalIP : String := ""
  port : String := ""
  pings : List String := []
  group : String := ""
  isp : String := ""
deriving DecidableEq

/-- Mutable state of `pingIP`'s line loop, plus the log of egress IPs
passed to `getIPInfo` (each such call with a non-empty IP issues one
HTTP GET to the geolocation service). -/
structure ParseState where
  externalIP : String := ""
  port : String := ""
  pings : List String := []
  calls : List String := []
deriving DecidableEq

/-- One iteration of `pingIP`'s `for _, line := range lines` loop: first
the `via` pattern (overwriting egress ip/port and invoking
`getIPInfo` on the freshly matched IP), then the `in ms` pattern
(appending the first latency capture of the line). -/
def lineStep (st : ParseState) (line : List Char) : ParseState :=
  let st1 :=
    match scanFirst viaAt line with
    | some m =>
      { st with
          externalIP := String.mk m.1
          port := String.mk m.2
          calls := st.calls ++ [String.mk m.1] }
    | none => st
  match scanFirst inMsAt line with
  | some ds => { st1 with pings := st1.pings ++ [String.mk ds] }
  | none => st1

/-- The whole parsing phase of `pingIP` over the combined output,
starting from the fields the peer record already holds. -/
def parsePingOutput (r : PingResult) (s : String) : ParseState :=
  (splitOnChar '\n' s.data).foldl lineStep
    { externalIP := r.externalIP, port := r.port, pings := r.pings, calls := [] }

/-- What the external world did for one probe: the platform was
unsupported, the probe command failed to spawn or returned an error, or
it produced combined output `s`. -/
inductive ProbeEnv where
  | unsupported
  | cmdError
  | output (s : String)
deriving DecidableEq

/-- `pingIP` (src/main.go lines 155-199): returns the updated peer
record, the list of egress IPs sent to the enrichment lookup, and the
new value of the shared completed-counter.  Every control path
increments the counter exactly once, mirroring the three `atomic.
AddInt32(completed, 1)` call sites. -/
def pingIP (env : ProbeEnv) (r : PingResult) (completed : Nat) :
    PingResult × List String × Nat :=
  match env with
  | .unsupported => (r, [], completed + 1)
  | .cmdError => (r, [], completed + 1)
  | .output s =>
    let st := parsePingOutput r s
    ({ r with externalIP := st.externalIP, port := st.port, pings := st.pings },
      st.calls, completed + 1)

/-- The fan-out scheduler's effect on the completed-counter: every
dispatched peer runs `pingIP` once under its environment. -/
def runAll : List (ProbeEnv × PingResult) → Nat → Nat
  | [], c => c
  | er :: rest, c => runAll rest (pingIP er.1 er.2 c).2.2

/-! ## NAT grouping (src/main.go lines 288-312) -/

/-- Lookup in an association-list model of the Go `map[string]int`
(keys are inserted at most once, so first-match lookup is exact). -/
def lookupA : List (String × Nat) → String → Option Nat
  | [], _ => none
  | kv :: m, ip => if kv.1 = ip then some kv.2 else lookupA m ip

/-- The condition under which the grouping passes consider a peer:
`externalIP != "" && isPublicIP(externalIP)`. -/
def eligibleIP (ip : String) : Bool :=
  ip ≠ "" && isPublicIP ip

/-- First pass (lines 293-297): count, per egress IP, the peers whose
egress is that IP and eligible (`groupCounts`). -/
def countEligible (ps : List PingResult) (ip : String) : Nat :=
  (ps.filter fun r => eligibleIP r.externalIP && r.externalIP = ip).length

/-- The evolution of `groupMap`/`groupCounter` over the peer list:
insert each not-yet-seen eligible egress IP with the next counter
value. -/
def buildGroupMap : List String → List (String × Nat) → Nat → List (String × Nat)
  | [], m, _ => m
  | ip :: rest, m, ctr =>
    if eligibleIP ip then
      match lookupA m ip with
      | some _ => buildGroupMap rest m ctr
      | none => buildGroupMap rest (m ++ [(ip, ctr)]) (ctr + 1)
    else buildGroupMap rest m ctr

/-- The final `groupMap` of one run, counting from 1. -/
def groupMapOf (ips : List String) : List (String × Nat) :=
  buildGroupMap ips [] 1

/-- First occurrences of eligible egress IPs, in list order (the
first-seen order in which `groupMap` keys are created). -/
def fseAux (seen : List String) : List String → List String
  | [] => []
  | ip :: rest =>
    if eligibleIP ip && !(seen.contains ip) then ip :: fseAux (ip :: seen) rest
    else fseAux seen rest

/-- First-seen eligible egress IPs of a run. -/
def firstSeen (ips : List String) : List String :=
  fseAux [] ips

/-- Pair a list with consecutive integers starting at `n`. -/
def zipFrom : Nat → List String → List (String × Nat)
  | _, [] => []
  | n, ip :: rest => (ip, n) :: zipFrom (n + 1) rest

/-- `numberToLetterWithCount` (src/main.go lines 80-86): the group label
rendered from the numeric identifier `n` (letter `'A' + n - 1`) and the
per-IP peer count. -/
def numberToLetterWithCount (n count : Nat) : String :=
  if n = 0 then ""
  else String.mk (Char.ofNat (64 + n) :: (" (" ++ Nat.repr count ++ ")").data)

/-- Second pass (lines 300-312): walk the peers in pre-sort order,
insert unseen eligible egress IPs into `groupMap` with the next counter
value, and stamp each eligible peer's `group` label from the map and
the counts. -/
def assignLoop : List PingResult → (String → Nat) → List (String × Nat) → Nat → List PingResult
  | [], _, _, _ => []
  | r :: rest, cnt, m, ctr =>
    if eligibleIP r.externalIP then
      match lookupA m r.externalIP with
      | some n =>
        { r with group := numberToLetterWithCount n (cnt r.externalIP) } ::
          assignLoop rest cnt m ctr
      | none =>
        { r with group := numberToLetterWithCount ctr (cnt r.externalIP) } ::
          assignLoop rest cnt (m ++ [(r.externalIP, ctr)]) (ctr + 1)
    else r :: assignLoop rest cnt m ctr

/-- Both grouping passes of `main`. -/
def assignGroups (ps : List PingResult) : List PingResult :=
  assignLoop ps (countEligible ps) [] 1

/-! ## Ranking (src/main.go lines 314-322) -/

/-- The `sort.Slice` comparator: primary key the group label under Go
string order, secondary key the mean latency ascending. -/
def pingLess (a b : PingResult) : Bool :=
  if a.group ≠ b.group then strLess a.group b.group
  else decide (calculateAverage a.pings < calculateAverage b.pings)

/-- The non-strict companion of `pingLess`.  `sort.Slice` (a
deterministic, unstable sort) guarantees a permutation of its input
that is pairwise sorted under this relation; `List.insertionSort`
realises one such permutation. -/
def pingLe (a b : PingResult) : Bool :=
  !(pingLess b a)

/-- The ranking stage: group assignment followed by the comparator
sort. -/
def rankPeers (ps : List PingResult) : List PingResult :=
  List.insertionSort (fun a b => pingLe a b = true) (assignGroups ps)

/-! ## Peer directory reader (`getTailscaleStatus`, src/main.go lines
106-131) -/

/-- One iteration of the scanner loop: trim the line; skip it when it is
empty, starts with `#`, or contains `"Self"`; split into fields; skip
when fewer than four; skip when the joined status suffix contains
`"offline"`; otherwise produce the peer record. -/
def parseStatusLine (ln : List Char) : Option PingResult :=
  let t := trimSpc ln
  if t.isEmpty || startsWithPat t ['#'] || containsPat t ['S', 'e', 'l', 'f'] then none
  else
    let fs := fieldsOf t
    if fs.length < 4 then none
    else
      if containsPat (joinWithChar ' ' (fs.drop 4))
          ['o', 'f', 'f', 'l', 'i', 'n', 'e'] then none
      else
        some { ip := String.mk (fs.getD 0 []), hostname := String.mk (fs.getD 1 []),
               user := String.mk (fs.getD 2 []), os := String.mk (fs.getD 3 []) }

/-- `getTailscaleStatus` applied to the raw status output: the scanner
loop appends exactly the records of the lines it does not skip. -/
def parseStatusOutput (out : String) : List PingResult :=
  (splitOnChar '\n' out.data).filterMap parseStatusLine

/-! ## Timed collection (src/unnamed/part_001 `main`, lines 164-217)

The variant with the global timeout collects outcomes over a channel
and waits on `select { case <-timeout; case <-resultsDone }`.  The
concurrent execution is embedded as the sequence of events the single
collector observes: each probe's completion (with its outcome, or on
its error path without one) and, possibly, the firing of the timeout,
after which no further event is processed. -/

/-- One event seen by the collecting `main`: a probe completed and sent
its outcome, a probe completed on its error path (counter incremented,
nothing sent), or the global timeout fired. -/
inductive CollectEv where
  | ok (r : PingResult)
  | errored
  | timeoutFired
deriving DecidableEq

/-- Drain events in order: completions extend the collected list and
the completed-counter; the timeout stops collection at once. -/
def collectLoop : List CollectEv → List PingResult → Nat → List PingResult × Nat × Bool
  | [], acc, c => (acc, c, false)
  | .ok r :: evs, acc, c => collectLoop evs (acc ++ [r]) (c + 1)
  | .errored :: evs, acc, c => collectLoop evs acc (c + 1)
  | .timeoutFired :: _, acc, c => (acc, c, true)

/-- The run's collection outcome from the initial state. -/
def collectRun (evs : List CollectEv) : List PingResult × Nat × Bool :=
  collectLoop evs [] 0

/-- The shortfall message printed on timeout:
`"Timeout reached. Collected %d/%d results."` (surrounding newlines of
the `Printf` format omitted). -/
def timeoutMessage (c total : Nat) : String :=
  "Timeout reached. Collected " ++ Nat.repr c ++ "/" ++ Nat.repr total ++ " results."

/-! ## Arrival-order independence (src/main.go lines 258-322)

In src/main.go each probe goroutine writes only its own slot
`&resultsList[i]`; the collector is the indexed slice itself.  A run is
therefore determined by the per-peer probe environments, and arrival
order is the order in which the per-slot writes land. -/

/-- Apply the completion writes of an arrival sequence: arrival of peer
`i` stores `pingIP`'s result for `i` into slot `i`. -/
def applyArrivals {n : Nat} (base : Fin n → PingResult) (env : Fin n → ProbeEnv) :
    List (Fin n) → Fin n → PingResult
  | [] => base
  | i :: rest => Function.update (applyArrivals base env rest) i (pingIP (env i) (base i) 0).1

/-- The final report of a run whose probe outcomes arrived in the order
`arr`. -/
def reportAfter {n : Nat} (base : Fin n → PingResult) (env : Fin n → ProbeEnv)
    (arr : List (Fin n)) : List PingResult :=
  rankPeers (List.ofFn (applyArrivals base env arr))

/-- The numeric group identifier a peer's label encodes: the letter's
code point minus 64 (so "A (3)" encodes 1), and 0 for the empty
label. -/
def groupNumOf (r : PingResult) : Nat :=
  match r.group.data with
  | [] => 0
  | ch :: _ => ch.toNat - 64

/-- The outcome a collection event delivers, if any (`.ok` events carry
one, error completions and the timeout carry none). -/
def okOutcome : CollectEv → Option PingResult
  | .ok r => some r
  | _ => none

/-! # Theorems -/

/-! ## Substring facts (used by claim C10) -/

/-- `startsWithPat` agrees with the existence of a completing tail. -/
theorem startsWithPat_iff : ∀ (s pat : List Char),
    startsWithPat s pat = true ↔ ∃ t, s = pat ++ t := by
  intro s
  induction s with
  | nil =>
    intro pat
    cases pat with
    | nil => simp [startsWithPat]
    | cons b bs => simp [startsWithPat]
  | cons a as ih =>
    intro pat
    cases pat with
    | nil => simp [startsWithPat]
    | cons b bs =>
      simp only [startsWithPat, Bool.and_eq_true, decide_eq_true_eq, ih, List.cons_append,
        List.cons.injEq]
      constructor
      · rintro ⟨h1, t, h2⟩
        exact ⟨t, h1, h2⟩
      · rintro ⟨t, h1, h2⟩
        exact ⟨h1, t, h2⟩

/-- `containsPat` agrees with the existence of an occurrence. -/
theorem containsPat_iff : ∀ (s pat : List Char),
    containsPat s pat = true ↔ ∃ pre post, s = pre ++ pat ++ post := by
  intro s
  induction s with
  | nil =>
    intro pat
    rw [show containsPat [] pat = startsWithPat [] pat from rfl, startsWithPat_iff]
    constructor
    · rintro ⟨t, ht⟩
      exact ⟨[], t, by simpa using ht⟩
    · rintro ⟨pre, post, hp⟩
      have h0 : pre ++ pat ++ post = [] := hp.symm
      simp only [List.append_eq_nil] at h0
      exact ⟨post, by simp [h0.1.2, h0.2]⟩
  | cons a t ih =>
    intro pat
    rw [show containsPat (a :: t) pat =
      (startsWithPat (a :: t) pat || containsPat t pat) from rfl]
    simp only [Bool.or_eq_true, startsWithPat_iff, ih]
    constructor
    · rintro (⟨t', ht⟩ | ⟨pre, post, hp⟩)
      · exact ⟨[], t', by simpa using ht⟩
      · exact ⟨a :: pre, post, by simp [hp]⟩
    · rintro ⟨pre, post, hp⟩
      cases pre with
      | nil => exact Or.inl ⟨post, by simpa using hp⟩
      | cons x xs =>
        right
        simp only [List.cons_append, List.cons.injEq] at hp
        exact ⟨xs, post, hp.2⟩

/-- Dropping a whitespace prefix cannot destroy an occurrence of a
pattern that starts with a non-whitespace character. -/
theorem containsPat_dropWhile (pat : List Char) (hne : pat ≠ [])
    (hns : ∀ c ∈ pat, isSpc c = false) :
    ∀ s : List Char, containsPat s pat = true →
      containsPat (s.dropWhile isSpc) pat = true := by
  intro s
  induction s with
  | nil => intro h; simpa using h
  | cons a t ih =>
    intro h
    rw [List.dropWhile_cons]
    by_cases hsp : isSpc a = true
    · rw [if_pos hsp]
      apply ih
      rw [show containsPat (a :: t) pat =
        (startsWithPat (a :: t) pat || containsPat t pat) from rfl] at h
      rcases Bool.or_eq_true _ _ |>.mp h with h' | h'
      · exfalso
        cases pat with
        | nil => exact hne rfl
        | cons p ps =>
          have := (startsWithPat_iff (a :: t) (p :: ps)).mp h'
          obtain ⟨t', ht⟩ := this
          have hap : a = p := by simpa using congrArg (fun l => l.headD ' ') ht
          have := hns p (List.mem_cons_self _ _)
          rw [← hap] at this
          rw [this] at hsp
          exact Bool.false_ne_true hsp
      · exact h'
    · rw [if_neg hsp]
      exact h

/-- Trimming whitespace from both ends preserves an occurrence of an
all-non-whitespace pattern. -/
theorem containsPat_trimSpc (pat : List Char) (hne : pat ≠ [])
    (hns : ∀ c ∈ pat, isSpc c = false) (s : List Char)
    (h : containsPat s pat = true) : containsPat (trimSpc s) pat = true := by
  have h1 := containsPat_dropWhile pat hne hns s h
  obtain ⟨pre, post, hp⟩ := (containsPat_iff _ _).mp h1
  have hrev : containsPat (s.dropWhile isSpc).reverse pat.reverse = true := by
    apply (containsPat_iff _ _).mpr
    exact ⟨post.reverse, pre.reverse, by simp [hp, List.reverse_append, List.append_assoc]⟩
  have hne' : pat.reverse ≠ [] := by simpa [List.reverse_eq_nil_iff] using hne
  have hns' : ∀ c ∈ pat.reverse, isSpc c = false := fun c hc => hns c (List.mem_reverse.mp hc)
  have h2 := containsPat_dropWhile pat.reverse hne' hns' _ hrev
  obtain ⟨pre2, post2, hp2⟩ := (containsPat_iff _ _).mp h2
  apply (containsPat_iff _ _).mpr
  refine ⟨post2.reverse, pre2.reverse, ?_⟩
  show ((s.dropWhile isSpc).reverse.dropWhile isSpc).reverse = _
  rw [hp2]
  simp [List.reverse_append, List.append_assoc]

/-! ## Directory reader facts (claim C10) -/

/-- C10: the directory reader drops every status line containing the
substring "Self" anywhere, and every record it produces comes from a
line that does not contain "Self". -/
theorem claim_C10 : ∀ (out : String) (ln : List Char) (r : PingResult),
    (containsPat ln ['S', 'e', 'l', 'f'] = true → parseStatusLine ln = none) ∧
    (r ∈ parseStatusOutput out →
      ∃ l₂, l₂ ∈ splitOnChar '\n' out.data ∧ parseStatusLine l₂ = some r ∧
        containsPat l₂ ['S', 'e', 'l', 'f'] = false) := by
  have hmain : ∀ l : List Char, containsPat l ['S', 'e', 'l', 'f'] = true →
      parseStatusLine l = none := by
    intro l hl
    have ht := containsPat_trimSpc ['S', 'e', 'l', 'f'] (by decide) (by decide) l hl
    simp [parseStatusLine, ht]
  intro out ln r
  refine ⟨hmain ln, fun hr => ?_⟩
  obtain ⟨l₂, hl₂, hp⟩ := List.mem_filterMap.mp hr
  refine ⟨l₂, hl₂, hp, ?_⟩
  by_contra hc
  have hc' : containsPat l₂ ['S', 'e', 'l', 'f'] = true := by
    simpa [Bool.not_eq_false] using hc
  rw [hmain l₂ hc'] at hp
  exact Option.noConfusion hp

/-- Witness for C10 at a concrete non-local peer line whose hostname
contains "Self". -/
theorem claim_C10_witness :
    containsPat ("100.1.1.2 MySelfHost bob linux active").data ['S', 'e', 'l', 'f'] = true ∧
    parseStatusLine ("100.1.1.2 MySelfHost bob linux active").data = none :=
  ⟨by decide,
    (claim_C10 "" ("100.1.1.2 MySelfHost bob linux active").data {}).1 (by decide)⟩

/-! ## Enrichment call facts (claim C9) -/

/-- One line's effect on the lookup-call log. -/
theorem lineStep_calls (st : ParseState) (ln : List Char) :
    (lineStep st ln).calls =
      st.calls ++ ((scanFirst viaAt ln).map fun m => String.mk m.1).toList := by
  cases hv : scanFirst viaAt ln <;> cases hm : scanFirst inMsAt ln <;>
    simp [lineStep, hv, hm]

/-- The whole loop's lookup-call log: one call per via-matching line,
with the matched IP, in line order. -/
theorem foldl_lineStep_calls : ∀ (lines : List (List Char)) (st : ParseState),
    (lines.foldl lineStep st).calls =
      st.calls ++ (lines.filterMap fun ln => (scanFirst viaAt ln).map fun m => String.mk m.1) := by
  intro lines
  induction lines with
  | nil => intro st; simp
  | cons ln rest ih =>
    intro st
    simp only [List.foldl_cons]
    rw [ih, lineStep_calls]
    cases hv : scanFirst viaAt ln <;> simp [List.filterMap_cons, hv]

/-- C9 (counterexample): a probe transcript whose relay line reports the
private egress 192.168.1.5 still triggers an enrichment lookup for that
IP, contradicting "no external lookup call is made at all" for
private-range egress IPs. -/
theorem claim_C9_counterexample :
    (parsePingOutput {} "via 192.168.1.5:41641 in 10ms").externalIP = "192.168.1.5" ∧
    isPublicIP "192.168.1.5" = false ∧
    (parsePingOutput {} "via 192.168.1.5:41641 in 10ms").calls = ["192.168.1.5"] :=
  ⟨by decide, by decide, by decide⟩

/-- C9 (amended): the probe executor issues one enrichment lookup per
via-matching line, with the matched egress IP, regardless of its
public/private classification; a peer whose output has no via match
(or whose probe errored or ran on an unsupported platform) triggers no
lookup at all. -/
theorem claim_C9_amended : ∀ (r : PingResult) (s : String),
    (parsePingOutput r s).calls =
      ((splitOnChar '\n' s.data).filterMap fun ln =>
        (scanFirst viaAt ln).map fun m => String.mk m.1) ∧
    ((∀ ln ∈ splitOnChar '\n' s.data, scanFirst viaAt ln = none) →
      (parsePingOutput r s).calls = []) ∧
    (∀ env : ProbeEnv, (∀ t, env ≠ ProbeEnv.output t) → (pingIP env r 0).2.1 = []) := by
  intro r s
  have h1 : (parsePingOutput r s).calls =
      ((splitOnChar '\n' s.data).filterMap fun ln =>
        (scanFirst viaAt ln).map fun m => String.mk m.1) := by
    unfold parsePingOutput
    rw [foldl_lineStep_calls]
    rfl
  refine ⟨h1, fun hall => ?_, fun env henv => ?_⟩
  · rw [h1]
    apply List.filterMap_eq_nil_iff.mpr
    intro ln hln
    rw [hall ln hln]
    rfl
  · cases env with
    | unsupported => rfl
    | cmdError => rfl
    | output t => exact absurd rfl (henv t)

/-- Witness for C9 (amended) at a transcript with no relay line. -/
theorem claim_C9_amended_witness :
    (∀ ln ∈ splitOnChar '\n' ("pong from peer in 12ms" : String).data,
      scanFirst viaAt ln = none) ∧
    (parsePingOutput {} "pong from peer in 12ms").calls = [] :=
  ⟨by decide, ((claim_C9_amended {} "pong from peer in 12ms").2.1 (by decide))⟩

/-! ## Probe transcript parsing facts (claim C8) -/

/-- One line's effect on the collected latency samples. -/
theorem lineStep_pings (st : ParseState) (ln : List Char) :
    (lineStep st ln).pings =
      st.pings ++ ((scanFirst inMsAt ln).map fun ds => String.mk ds).toList := by
  cases hv : scanFirst viaAt ln <;> cases hm : scanFirst inMsAt ln <;>
    simp [lineStep, hv, hm]

/-- The loop collects, per line, the first latency capture of that
line, in line order. -/
theorem foldl_lineStep_pings : ∀ (lines : List (List Char)) (st : ParseState),
    (lines.foldl lineStep st).pings =
      st.pings ++ (lines.filterMap fun ln => (scanFirst inMsAt ln).map fun ds => String.mk ds) := by
  intro lines
  induction lines with
  | nil => intro st; simp
  | cons ln rest ih =>
    intro st
    simp only [List.foldl_cons]
    rw [ih, lineStep_pings]
    cases hm : scanFirst inMsAt ln <;> simp [List.filterMap_cons, hm]

/-- One line's effect on the egress IP field (a match overwrites it). -/
theorem lineStep_externalIP (st : ParseState) (ln : List Char) :
    (lineStep st ln).externalIP =
      ((scanFirst viaAt ln).map fun m => String.mk m.1).getD st.externalIP := by
  cases hv : scanFirst viaAt ln <;> cases hm : scanFirst inMsAt ln <;>
    simp [lineStep, hv, hm]

/-- One line's effect on the egress port field. -/
theorem lineStep_port (st : ParseState) (ln : List Char) :
    (lineStep st ln).port =
      ((scanFirst viaAt ln).map fun m => String.mk m.2).getD st.port := by
  cases hv : scanFirst viaAt ln <;> cases hm : scanFirst inMsAt ln <;>
    simp [lineStep, hv, hm]

/-- Across the whole loop the last via match wins for the egress IP. -/
theorem foldl_lineStep_externalIP : ∀ (lines : List (List Char)) (st : ParseState),
    (lines.foldl lineStep st).externalIP =
      (lines.filterMap fun ln => (scanFirst viaAt ln).map fun m => String.mk m.1).getLastD
        st.externalIP := by
  intro lines
  induction lines with
  | nil => intro st; simp
  | cons ln rest ih =>
    intro st
    simp only [List.foldl_cons]
    rw [ih, lineStep_externalIP]
    cases hv : scanFirst viaAt ln with
    | none => simp only [List.filterMap_cons, hv, Option.map_none', Option.getD_none]
    | some m =>
      simp only [List.filterMap_cons, hv, Option.map_some', Option.getD_some]
      rw [List.getLastD_cons]

/-- Across the whole loop the last via match wins for the egress
port. -/
theorem foldl_lineStep_port : ∀ (lines : List (List Char)) (st : ParseState),
    (lines.foldl lineStep st).port =
      (lines.filterMap fun ln => (scanFirst viaAt ln).map fun m => String.mk m.2).getLastD
        st.port := by
  intro lines
  induction lines with
  | nil => intro st; simp
  | cons ln rest ih =>
    intro st
    simp only [List.foldl_cons]
    rw [ih, lineStep_port]
    cases hv : scanFirst viaAt ln with
    | none => simp only [List.filterMap_cons, hv, Option.map_none', Option.getD_none]
    | some m =>
      simp only [List.filterMap_cons, hv, Option.map_some', Option.getD_some]
      rw [List.getLastD_cons]

/-- C8 (counterexample): on a transcript line holding two latency
markers `in 5ms in 7ms`, only the first marker of the line is
extracted, so the parsed sample sequence is ["5"], not every marker
["5", "7"]. -/
theorem claim_C8_counterexample :
    (parsePingOutput {} "in 5ms in 7ms").pings = ["5"] ∧ (["5"] : List String) ≠ ["5", "7"] :=
  ⟨by decide, by decide⟩

/-- C8 (amended): parsing extracts the first `in <n>ms` marker of each
line as a latency sample in line order and the last via-matching line's
first `via <ip>:<port>` marker as the egress descriptor; on the
spec's literal transcript the outcome has egress 203.0.113.5:41641,
samples [17, 22, 19] and mean 58/3, which is 19.33 to two decimal
places. -/
theorem claim_C8_amended : ∀ (r : PingResult) (s : String),
    ((parsePingOutput r s).pings =
      r.pings ++ ((splitOnChar '\n' s.data).filterMap fun ln =>
        (scanFirst inMsAt ln).map fun ds => String.mk ds) ∧
     (parsePingOutput r s).externalIP =
      ((splitOnChar '\n' s.data).filterMap fun ln =>
        (scanFirst viaAt ln).map fun m => String.mk m.1).getLastD r.externalIP ∧
     (parsePingOutput r s).port =
      ((splitOnChar '\n' s.data).filterMap fun ln =>
        (scanFirst viaAt ln).map fun m => String.mk m.2).getLastD r.port) ∧
    parsePingOutput {} "via 203.0.113.5:41641 in 17ms\n... in 22ms\n... in 19ms" =
      { externalIP := "203.0.113.5", port := "41641", pings := ["17", "22", "19"],
        calls := ["203.0.113.5"] } ∧
    calculateAverage ["17", "22", "19"] = 58 / 3 ∧
    |calculateAverage ["17", "22", "19"] - 1933 / 100| < 1 / 200 := by
  intro r s
  have havg : calculateAverage ["17", "22", "19"] = 58 / 3 := by
    have hps : pingSum ["17", "22", "19"] 0 = 58 := by decide
    simp only [calculateAverage, hps]
    norm_num
  refine ⟨⟨?_, ?_, ?_⟩, by decide, havg, ?_⟩
  · unfold parsePingOutput
    rw [foldl_lineStep_pings]
  · unfold parsePingOutput
    rw [foldl_lineStep_externalIP]
  · unfold parsePingOutput
    rw [foldl_lineStep_port]
  · rw [havg, show (58 : ℚ) / 3 - 1933 / 100 = 1 / 300 by norm_num,
      abs_of_pos (show (0 : ℚ) < 1 / 300 by norm_num)]
    norm_num

/-! ## Timed collection facts (claim C6) -/

/-- Collection processes every pre-timeout completion and stops at the
timeout: the collected outcomes are the `.ok` payloads of the prefix
and the counter equals the prefix length. -/
theorem collectLoop_timeout : ∀ (pre rest : List CollectEv) (acc : List PingResult) (c : Nat),
    CollectEv.timeoutFired ∉ pre →
    collectLoop (pre ++ CollectEv.timeoutFired :: rest) acc c =
      (acc ++ pre.filterMap okOutcome, c + pre.length, true) := by
  intro pre
  induction pre with
  | nil => intro rest acc c _; simp [collectLoop]
  | cons e pre' ih =>
    intro rest acc c hmem
    have hni : CollectEv.timeoutFired ∉ pre' := fun hx => hmem (List.mem_cons_of_mem _ hx)
    cases e with
    | ok r =>
      show collectLoop (pre' ++ _) (acc ++ [r]) (c + 1) = _
      rw [ih rest (acc ++ [r]) (c + 1) hni]
      simp [okOutcome, List.filterMap_cons, List.append_assoc]
      omega
    | errored =>
      show collectLoop (pre' ++ _) acc (c + 1) = _
      rw [ih rest acc (c + 1) hni]
      simp [okOutcome, List.filterMap_cons]
      omega
    | timeoutFired => exact absurd (List.mem_cons_self _ _) hmem

/-- The `.ok` payloads of a mapped outcome list are the outcomes
themselves. -/
theorem filterMap_okOutcome_map_ok : ∀ rs : List PingResult,
    (rs.map CollectEv.ok).filterMap okOutcome = rs := by
  intro rs
  induction rs with
  | nil => rfl
  | cons r rest ih => simp [okOutcome, List.filterMap_cons, ih]

/-- C6: when the global timeout fires before all probes complete, the
run stops waiting, hands the outcomes collected so far to ranking, and
reports the shortfall as completed/total; with 10 peers of which 3
never return, the report holds the 7 completed peers and the shortfall
is 3. -/
theorem claim_C6 : ∀ (pre rest : List CollectEv) (rs : List PingResult),
    CollectEv.timeoutFired ∉ pre → rs.length = 7 →
    collectRun (pre ++ CollectEv.timeoutFired :: rest) =
      (pre.filterMap okOutcome, pre.length, true) ∧
    collectRun (rs.map CollectEv.ok ++ CollectEv.timeoutFired :: rest) = (rs, 7, true) ∧
    (10 : Nat) - 7 = 3 ∧
    timeoutMessage 7 10 = "Timeout reached. Collected 7/10 results." := by
  intro pre rest rs hpre hlen
  refine ⟨?_, ?_, rfl, by decide⟩
  · unfold collectRun
    rw [collectLoop_timeout pre rest [] 0 hpre]
    simp
  · unfold collectRun
    have hnot : CollectEv.timeoutFired ∉ rs.map CollectEv.ok := by
      intro hx
      obtain ⟨r, _, habs⟩ := List.mem_map.mp hx
      exact CollectEv.noConfusion habs
    rw [collectLoop_timeout _ rest [] 0 hnot, filterMap_okOutcome_map_ok]
    simp [hlen]

/-- Witness for C6 at the concrete 7-of-10 scenario. -/
theorem claim_C6_witness :
    (CollectEv.timeoutFired ∉ ([] : List CollectEv) ∧
      (List.replicate 7 ({} : PingResult)).length = 7) ∧
    (collectRun [CollectEv.timeoutFired] = ([], 0, true) ∧
     collectRun ((List.replicate 7 ({} : PingResult)).map CollectEv.ok ++
        CollectEv.timeoutFired :: []) = (List.replicate 7 ({} : PingResult), 7, true) ∧
     (10 : Nat) - 7 = 3 ∧
     timeoutMessage 7 10 = "Timeout reached. Collected 7/10 results.") :=
  ⟨⟨by decide, by decide⟩,
    claim_C6 [] [] (List.replicate 7 ({} : PingResult)) (by decide) (by decide)⟩

/-! ## Grouping facts (claim C2) -/

/-- Lookup hits in the left part of an appended map stay hits. -/
theorem lookupA_append_of_some : ∀ (m m' : List (String × Nat)) (ip : String) (v : Nat),
    lookupA m ip = some v → lookupA (m ++ m') ip = some v := by
  intro m
  induction m with
  | nil => intro m' ip v h; exact absurd h (by simp [lookupA])
  | cons kv m ih =>
    intro m' ip v h
    rw [show lookupA (kv :: m) ip = (if kv.1 = ip then some kv.2 else lookupA m ip) from rfl] at h
    show (if kv.1 = ip then some kv.2 else lookupA (m ++ m') ip) = some v
    by_cases hk : kv.1 = ip
    · rw [if_pos hk] at h ⊢; exact h
    · rw [if_neg hk] at h ⊢; exact ih m' ip v h

/-- Lookup misses in the left part of an appended map defer to the
right part. -/
theorem lookupA_append_of_none : ∀ (m m' : List (String × Nat)) (ip : String),
    lookupA m ip = none → lookupA (m ++ m') ip = lookupA m' ip := by
  intro m
  induction m with
  | nil => intro m' ip _; rfl
  | cons kv m ih =>
    intro m' ip h
    rw [show lookupA (kv :: m) ip = (if kv.1 = ip then some kv.2 else lookupA m ip) from rfl] at h
    show (if kv.1 = ip then some kv.2 else lookupA (m ++ m') ip) = lookupA m' ip
    by_cases hk : kv.1 = ip
    · rw [if_pos hk] at h; exact absurd h (by simp)
    · rw [if_neg hk] at h ⊢; exact ih m' ip h

/-- A key occurs among a map's keys exactly when its lookup succeeds. -/
theorem contains_map_fst : ∀ (m : List (String × Nat)) (ip : String),
    (m.map Prod.fst).contains ip = (lookupA m ip).isSome := by
  intro m
  induction m with
  | nil => intro ip; rfl
  | cons kv m ih =>
    intro ip
    rw [List.map_cons, List.contains_cons, ih]
    show (ip == kv.1 || _) = (if kv.1 = ip then some kv.2 else lookupA m ip).isSome
    by_cases hk : kv.1 = ip
    · simp [hk]
    · have : (ip == kv.1) = false := by
        simp only [beq_eq_false_iff_ne, ne_eq]
        exact fun h => hk h.symm
      simp [this, if_neg hk]

/-- `List.contains` agrees with membership on string lists. -/
theorem containsS_iff (s : List String) (ip : String) : s.contains ip = true ↔ ip ∈ s :=
  List.elem_iff

/-- `fseAux` depends on the seen set only through membership. -/
theorem fseAux_congr : ∀ (l s₁ s₂ : List String),
    (∀ x, x ∈ s₁ ↔ x ∈ s₂) → fseAux s₁ l = fseAux s₂ l := by
  intro l
  induction l with
  | nil => intro s₁ s₂ _; rfl
  | cons ip rest ih =>
    intro s₁ s₂ hmem
    have hc : s₁.contains ip = s₂.contains ip := by
      by_cases h : ip ∈ s₁
      · rw [(containsS_iff _ _).mpr h, (containsS_iff _ _).mpr ((hmem ip).mp h)]
      · have h₂ : ip ∉ s₂ := fun hx => h ((hmem ip).mpr hx)
        rw [show s₁.contains ip = false from by
            simpa using fun hx => h ((containsS_iff _ _).mp hx),
          show s₂.contains ip = false from by
            simpa using fun hx => h₂ ((containsS_iff _ _).mp hx)]
    show (if eligibleIP ip && !(s₁.contains ip) then ip :: fseAux (ip :: s₁) rest
        else fseAux s₁ rest) =
      (if eligibleIP ip && !(s₂.contains ip) then ip :: fseAux (ip :: s₂) rest
        else fseAux s₂ rest)
    rw [hc]
    by_cases hcond : (eligibleIP ip && !(s₂.contains ip)) = true
    · rw [if_pos hcond, if_pos hcond]
      have : ∀ x, x ∈ ip :: s₁ ↔ x ∈ ip :: s₂ := by
        intro x
        simp only [List.mem_cons]
        exact or_congr Iff.rfl (hmem x)
      rw [ih _ _ this]
    · rw [if_neg hcond, if_neg hcond]
      exact ih _ _ hmem

/-- The map construction is the first-seen eligible list paired with
consecutive counter values. -/
theorem buildGroupMap_eq : ∀ (l : List String) (m : List (String × Nat)) (ctr : Nat),
    buildGroupMap l m ctr = m ++ zipFrom ctr (fseAux (m.map Prod.fst) l) := by
  intro l
  induction l with
  | nil => intro m ctr; simp [buildGroupMap, fseAux, zipFrom]
  | cons ip rest ih =>
    intro m ctr
    show (if eligibleIP ip then
        match lookupA m ip with
        | some _ => buildGroupMap rest m ctr
        | none => buildGroupMap rest (m ++ [(ip, ctr)]) (ctr + 1)
      else buildGroupMap rest m ctr) = _
    by_cases he : eligibleIP ip = true
    · rw [if_pos he]
      cases hl : lookupA m ip with
      | some v =>
        have hcont : (m.map Prod.fst).contains ip = true := by
          rw [contains_map_fst, hl]; rfl
        have : fseAux (m.map Prod.fst) (ip :: rest) = fseAux (m.map Prod.fst) rest := by
          show (if eligibleIP ip && !((m.map Prod.fst).contains ip) then _ else _) = _
          rw [hcont]
          simp
        rw [this, ih]
      | none =>
        have hcont : (m.map Prod.fst).contains ip = false := by
          rw [contains_map_fst, hl]; rfl
        have hfse : fseAux (m.map Prod.fst) (ip :: rest) =
            ip :: fseAux (ip :: m.map Prod.fst) rest := by
          show (if eligibleIP ip && !((m.map Prod.fst).contains ip) then _ else _) = _
          rw [hcont, he]
          simp
        rw [ih (m ++ [(ip, ctr)]) (ctr + 1), hfse]
        have hmap : (m ++ [(ip, ctr)]).map Prod.fst = m.map Prod.fst ++ [ip] := by simp
        rw [hmap, fseAux_congr rest (m.map Prod.fst ++ [ip]) (ip :: m.map Prod.fst)
          (by intro x; simp [List.mem_append, List.mem_cons, or_comm])]
        show _ = m ++ ((ip, ctr) :: zipFrom (ctr + 1) (fseAux (ip :: m.map Prod.fst) rest))
        simp [List.append_assoc]
    · rw [if_neg he]
      have : fseAux (m.map Prod.fst) (ip :: rest) = fseAux (m.map Prod.fst) rest := by
        show (if eligibleIP ip && !((m.map Prod.fst).contains ip) then _ else _) = _
        rw [show eligibleIP ip = false from by simpa using he]
        simp
      rw [this, ih]

/-- A successful lookup in a consecutive-numbering map recovers the
position of the key. -/
theorem lookupA_zipFrom : ∀ (L : List String) (n : Nat) (ip : String) (v : Nat),
    lookupA (zipFrom n L) ip = some v → n ≤ v ∧ L[v - n]? = some ip := by
  intro L
  induction L with
  | nil => intro n ip v h; exact absurd h (by simp [zipFrom, lookupA])
  | cons x L' ih =>
    intro n ip v h
    rw [show zipFrom n (x :: L') = (x, n) :: zipFrom (n + 1) L' from rfl] at h
    rw [show lookupA ((x, n) :: zipFrom (n + 1) L') ip =
      (if x = ip then some n else lookupA (zipFrom (n + 1) L') ip) from rfl] at h
    by_cases hx : x = ip
    · rw [if_pos hx] at h
      cases h
      subst hx
      exact ⟨le_rfl, by simp⟩
    · rw [if_neg hx] at h
      obtain ⟨hle, hget⟩ := ih (n + 1) ip v h
      refine ⟨by omega, ?_⟩
      have : v - n = (v - (n + 1)) + 1 := by omega
      rw [this, List.getElem?_cons_succ]
      exact hget

/-- A key present in the list has a successful lookup in the
consecutive-numbering map. -/
theorem lookupA_zipFrom_mem : ∀ (L : List String) (n : Nat) (ip : String), ip ∈ L →
    ∃ v, lookupA (zipFrom n L) ip = some v := by
  intro L
  induction L with
  | nil => intro n ip h; exact absurd h (List.not_mem_nil ip)
  | cons x L' ih =>
    intro n ip h
    show ∃ v, (if x = ip then some n else lookupA (zipFrom (n + 1) L') ip) = some v
    by_cases hx : x = ip
    · exact ⟨n, by rw [if_pos hx]⟩
    · rcases List.mem_cons.mp h with h' | h'
      · exact absurd h'.symm hx
      · obtain ⟨v, hv⟩ := ih (n + 1) ip h'
        exact ⟨v, by rw [if_neg hx]; exact hv⟩

/-- A key absent from the list has no entry in the
consecutive-numbering map. -/
theorem lookupA_zipFrom_not_mem : ∀ (L : List String) (n : Nat) (ip : String), ip ∉ L →
    lookupA (zipFrom n L) ip = none := by
  intro L
  induction L with
  | nil => intro n ip _; rfl
  | cons x L' ih =>
    intro n ip h
    show (if x = ip then some n else lookupA (zipFrom (n + 1) L') ip) = none
    rw [if_neg (fun hx => h (by rw [← hx]; exact List.mem_cons_self x L'))]
    exact ih (n + 1) ip fun hx => h (List.mem_cons_of_mem _ hx)

/-- An eligible IP of the run appears in the first-seen list. -/
theorem fseAux_mem : ∀ (l seen : List String) (ip : String),
    ip ∈ l → eligibleIP ip = true → ip ∈ fseAux seen l ∨ ip ∈ seen := by
  intro l
  induction l with
  | nil => intro seen ip h _; exact absurd h (List.not_mem_nil ip)
  | cons x rest ih =>
    intro seen ip hmem he
    show ip ∈ (if eligibleIP x && !(seen.contains x) then x :: fseAux (x :: seen) rest
      else fseAux seen rest) ∨ ip ∈ seen
    by_cases hc : (eligibleIP x && !(seen.contains x)) = true
    · rw [if_pos hc]
      rcases List.mem_cons.mp hmem with h' | h'
      · subst h'
        exact Or.inl (List.mem_cons_self _ _)
      · rcases ih (x :: seen) ip h' he with h'' | h''
        · exact Or.inl (List.mem_cons_of_mem _ h'')
        · rcases List.mem_cons.mp h'' with h3 | h3
          · subst h3
            exact Or.inl (List.mem_cons_self _ _)
          · exact Or.inr h3
    · rw [if_neg hc]
      rcases List.mem_cons.mp hmem with h' | h'
      · subst h'
        right
        rw [← containsS_iff]
        by_contra hcc
        apply hc
        rw [he]
        have hfalse : seen.contains ip = false := by
          cases hv : seen.contains ip
          · rfl
          · exact absurd hv hcc
        rw [hfalse]
        rfl
      · exact ih seen ip h' he

/-- Every entry of the first-seen list is eligible. -/
theorem fseAux_all_elig : ∀ (l seen : List String) (x : String),
    x ∈ fseAux seen l → eligibleIP x = true := by
  intro l
  induction l with
  | nil => intro seen x h; exact absurd h (List.not_mem_nil x)
  | cons ip rest ih =>
    intro seen x h
    rw [show fseAux seen (ip :: rest) =
      (if eligibleIP ip && !(seen.contains ip) then ip :: fseAux (ip :: seen) rest
        else fseAux seen rest) from rfl] at h
    by_cases hc : (eligibleIP ip && !(seen.contains ip)) = true
    · rw [if_pos hc] at h
      rcases List.mem_cons.mp h with h' | h'
      · subst h'
        exact (Bool.and_eq_true _ _ |>.mp hc).1
      · exact ih _ x h'
    · rw [if_neg hc] at h
      exact ih _ x h

/-- Lookups survive the rest of the construction once a key is in the
map. -/
theorem lookupA_buildGroupMap_of_some : ∀ (l : List String) (m : List (String × Nat))
    (ctr : Nat) (ip : String) (v : Nat), lookupA m ip = some v →
    lookupA (buildGroupMap l m ctr) ip = some v := by
  intro l m ctr ip v h
  rw [buildGroupMap_eq]
  exact lookupA_append_of_some _ _ _ _ h

/-- The second grouping pass stamps every eligible peer with the label
derived from the final map and the per-IP counts, and leaves other
peers untouched. -/
theorem assignLoop_eq : ∀ (ps : List PingResult) (cnt : String → Nat)
    (m : List (String × Nat)) (ctr : Nat),
    assignLoop ps cnt m ctr = ps.map fun r =>
      if eligibleIP r.externalIP then
        { r with group := (numberToLetterWithCount
            ((lookupA (buildGroupMap (ps.map (·.externalIP)) m ctr) r.externalIP).getD 0)
            (cnt r.externalIP)) }
      else r := by
  intro ps
  induction ps with
  | nil => intro cnt m ctr; rfl
  | cons r rest ih =>
    intro cnt m ctr
    by_cases he : eligibleIP r.externalIP = true
    · cases hl : lookupA m r.externalIP with
      | some n =>
        have hfin : buildGroupMap ((r :: rest).map (·.externalIP)) m ctr =
            buildGroupMap (rest.map (·.externalIP)) m ctr := by
          show (if eligibleIP r.externalIP then _ else _) = _
          rw [if_pos he, hl]
        have hlook := lookupA_buildGroupMap_of_some (rest.map (·.externalIP)) m ctr _ _ hl
        rw [List.map_cons, hfin]
        unfold assignLoop
        rw [if_pos he, hl]
        show ({ r with group := numberToLetterWithCount n (cnt r.externalIP) } ::
          assignLoop rest cnt m ctr) = _
        rw [ih cnt m ctr, if_pos he, hlook]
        rfl
      | none =>
        have hfin : buildGroupMap ((r :: rest).map (·.externalIP)) m ctr =
            buildGroupMap (rest.map (·.externalIP)) (m ++ [(r.externalIP, ctr)]) (ctr + 1) := by
          show (if eligibleIP r.externalIP then _ else _) = _
          rw [if_pos he, hl]
        have hm2 : lookupA (m ++ [(r.externalIP, ctr)]) r.externalIP = some ctr := by
          rw [lookupA_append_of_none _ _ _ hl]
          show (if r.externalIP = r.externalIP then some ctr else none) = some ctr
          rw [if_pos rfl]
        have hlook := lookupA_buildGroupMap_of_some (rest.map (·.externalIP))
          (m ++ [(r.externalIP, ctr)]) (ctr + 1) _ _ hm2
        rw [List.map_cons, hfin]
        unfold assignLoop
        rw [if_pos he, hl]
        show ({ r with group := numberToLetterWithCount ctr (cnt r.externalIP) } ::
          assignLoop rest cnt (m ++ [(r.externalIP, ctr)]) (ctr + 1)) = _
        rw [ih cnt (m ++ [(r.externalIP, ctr)]) (ctr + 1), if_pos he, hlook]
        rfl
    · have he2 : eligibleIP r.externalIP = false := by simpa using he
      have hfin : buildGroupMap ((r :: rest).map (·.externalIP)) m ctr =
          buildGroupMap (rest.map (·.externalIP)) m ctr := by
        show (if eligibleIP r.externalIP then _ else _) = _
        rw [he2]
        simp
      rw [List.map_cons, hfin]
      unfold assignLoop
      rw [if_neg he]
      show (r :: assignLoop rest cnt m ctr) = _
      rw [ih cnt m ctr, if_neg he]

/-- An eligible IP occurring in the run has an identifier between 1 and
the number of distinct eligible IPs. -/
theorem lookupA_groupMapOf_elig : ∀ (ips : List String) (ip : String),
    ip ∈ ips → eligibleIP ip = true →
    ∃ n, lookupA (groupMapOf ips) ip = some n ∧ 1 ≤ n ∧ n ≤ (firstSeen ips).length := by
  intro ips ip hmem he
  have hfse : ip ∈ firstSeen ips := by
    rcases fseAux_mem ips [] ip hmem he with h | h
    · exact h
    · exact absurd h (List.not_mem_nil ip)
  have hmap : groupMapOf ips = zipFrom 1 (firstSeen ips) := by
    unfold groupMapOf firstSeen
    rw [buildGroupMap_eq]
    rfl
  obtain ⟨v, hv⟩ := lookupA_zipFrom_mem (firstSeen ips) 1 ip hfse
  obtain ⟨h1, hget⟩ := lookupA_zipFrom _ _ _ _ hv
  have hlt : v - 1 < (firstSeen ips).length := by
    by_contra hge
    rw [List.getElem?_eq_none (by omega)] at hget
    exact Option.noConfusion hget
  exact ⟨v, by rw [hmap]; exact hv, h1, by omega⟩

/-- C2: equal eligible egress IPs receive equal identifiers, distinct
eligible egress IPs receive distinct identifiers, ineligible (absent,
invalid or private) egress IPs receive none, identifiers are the
consecutive integers from 1 in first-seen order over the pre-sort peer
list, and the assignment pass stamps exactly these identifiers. -/
theorem claim_C2 : ∀ (ps : List PingResult) (p q : PingResult),
    p ∈ ps → q ∈ ps →
    (groupMapOf (ps.map (·.externalIP)) =
      zipFrom 1 (firstSeen (ps.map (·.externalIP)))) ∧
    (eligibleIP p.externalIP = true → eligibleIP q.externalIP = true →
      p.externalIP = q.externalIP →
      lookupA (groupMapOf (ps.map (·.externalIP))) p.externalIP =
        lookupA (groupMapOf (ps.map (·.externalIP))) q.externalIP) ∧
    (eligibleIP p.externalIP = true → eligibleIP q.externalIP = true →
      p.externalIP ≠ q.externalIP →
      lookupA (groupMapOf (ps.map (·.externalIP))) p.externalIP ≠
        lookupA (groupMapOf (ps.map (·.externalIP))) q.externalIP) ∧
    (eligibleIP p.externalIP = false →
      lookupA (groupMapOf (ps.map (·.externalIP))) p.externalIP = none) ∧
    (eligibleIP p.externalIP = true →
      ∃ n, lookupA (groupMapOf (ps.map (·.externalIP))) p.externalIP = some n ∧
        1 ≤ n ∧ n ≤ (firstSeen (ps.map (·.externalIP))).length) ∧
    assignGroups ps = ps.map (fun r =>
      if eligibleIP r.externalIP then
        { r with group := (numberToLetterWithCount
            ((lookupA (groupMapOf (ps.map (·.externalIP))) r.externalIP).getD 0)
            (countEligible ps r.externalIP)) }
      else r) := by
  intro ps p q hp hq
  have hmap : groupMapOf (ps.map (·.externalIP)) =
      zipFrom 1 (firstSeen (ps.map (·.externalIP))) := by
    unfold groupMapOf firstSeen
    rw [buildGroupMap_eq]
    rfl
  refine ⟨hmap, ?_, ?_, ?_, ?_, ?_⟩
  · intro _ _ heq
    rw [heq]
  · intro hep heq hne habs
    have hpm : p.externalIP ∈ ps.map (·.externalIP) := List.mem_map_of_mem _ hp
    have hqm : q.externalIP ∈ ps.map (·.externalIP) := List.mem_map_of_mem _ hq
    obtain ⟨np, hnp, _, _⟩ := lookupA_groupMapOf_elig _ _ hpm hep
    obtain ⟨nq, hnq, _, _⟩ := lookupA_groupMapOf_elig _ _ hqm heq
    rw [hmap] at hnp hnq
    obtain ⟨_, hgp⟩ := lookupA_zipFrom _ _ _ _ hnp
    obtain ⟨_, hgq⟩ := lookupA_zipFrom _ _ _ _ hnq
    rw [hmap] at habs
    rw [hnp, hnq] at habs
    cases habs
    rw [hgp] at hgq
    exact hne (by injection hgq)
  · intro hep
    rw [hmap]
    apply lookupA_zipFrom_not_mem
    intro hmem
    have := fseAux_all_elig _ [] _ hmem
    rw [hep] at this
    exact Bool.false_ne_true this
  · intro hep
    exact lookupA_groupMapOf_elig _ _ (List.mem_map_of_mem _ hp) hep
  · unfold assignGroups
    rw [assignLoop_eq]
    rfl

/-- Witness for C2 at a concrete two-peer run sharing one public egress
IP. -/
theorem claim_C2_witness :
    ({ externalIP := "8.8.8.8" } : PingResult) ∈
      [({ externalIP := "8.8.8.8" } : PingResult), { externalIP := "9.9.9.9" }] ∧
    ({ externalIP := "9.9.9.9" } : PingResult) ∈
      [({ externalIP := "8.8.8.8" } : PingResult), { externalIP := "9.9.9.9" }] ∧
    (eligibleIP ("8.8.8.8" : String) = true → eligibleIP ("9.9.9.9" : String) = true →
      ("8.8.8.8" : String) ≠ "9.9.9.9" →
      lookupA (groupMapOf ([({ externalIP := "8.8.8.8" } : PingResult),
          { externalIP := "9.9.9.9" }].map (·.externalIP))) "8.8.8.8" ≠
        lookupA (groupMapOf ([({ externalIP := "8.8.8.8" } : PingResult),
          { externalIP := "9.9.9.9" }].map (·.externalIP))) "9.9.9.9") := by
  refine ⟨by decide, by decide, ?_⟩
  exact (claim_C2 [{ externalIP := "8.8.8.8" }, { externalIP := "9.9.9.9" }]
    { externalIP := "8.8.8.8" } { externalIP := "9.9.9.9" }
    (by decide) (by decide)).2.2.1

/-! ## IP classification facts (claim C3) -/

/-- A field accepted by `isOctetField` has value at most 255. -/
theorem isOctetField_le {f : List Char} (h : isOctetField f = true) : digitsVal f ≤ 255 := by
  unfold isOctetField at h
  simp only [Bool.and_eq_true, decide_eq_true_eq] at h
  exact h.2

/-- Every octet produced by `parseIPv4` is at most 255. -/
theorem parseIPv4_bounds {s : String} {q : Nat × Nat × Nat × Nat} (h : parseIPv4 s = some q) :
    q.1 ≤ 255 ∧ q.2.1 ≤ 255 ∧ q.2.2.1 ≤ 255 ∧ q.2.2.2 ≤ 255 := by
  unfold parseIPv4 at h
  split at h
  · split at h
    · rename_i hc
      simp only [Bool.and_eq_true] at hc
      obtain ⟨⟨⟨ha, hb⟩, hcc⟩, hd⟩ := hc
      cases h
      exact ⟨isOctetField_le ha, isOctetField_le hb, isOctetField_le hcc, isOctetField_le hd⟩
    · exact absurd h (by simp)
  · exact absurd h (by simp)

/-- C3: an IP string is classified public if and only if it is a
syntactically valid (IPv4) address and not contained in any of 10/8,
127/8, 172.16/12, 192.168/16, 169.254/16, 100.64/10; in particular
10.1.2.3, 192.168.0.5 and 100.72.0.1 classify as private while
203.0.113.5 and 8.8.8.8 classify as public. -/
theorem claim_C3 :
    (∀ s : String, isPublicIP s = true ↔ specPublic s) ∧
    isPublicIP "10.1.2.3" = false ∧ isPublicIP "192.168.0.5" = false ∧
    isPublicIP "100.72.0.1" = false ∧ isPublicIP "203.0.113.5" = true ∧
    isPublicIP "8.8.8.8" = true := by
  refine ⟨fun s => ?_, by decide, by decide, by decide, by decide, by decide⟩
  unfold isPublicIP specPublic
  cases hp : parseIPv4 s with
  | none => simp
  | some q =>
    obtain ⟨a, b, c, d⟩ := q
    obtain ⟨ha, hb, hc, hd⟩ := parseIPv4_bounds hp
    simp only at ha hb hc hd
    have key : ((privateBlocks.any fun bp => inBlock (ipNum (a, b, c, d)) bp.1 bp.2) = true)
        ↔ specReserved (a, b, c, d) := by
      have k1 : (((a * 256 + b) * 256 + c) * 256 + d) / 2 ^ 24
          = (((10 * 256 + 0) * 256 + 0) * 256 + 0) / 2 ^ 24 ↔ a = 10 := by omega
      have k2 : (((a * 256 + b) * 256 + c) * 256 + d) / 2 ^ 24
          = (((127 * 256 + 0) * 256 + 0) * 256 + 0) / 2 ^ 24 ↔ a = 127 := by omega
      have k3 : (((a * 256 + b) * 256 + c) * 256 + d) / 2 ^ 20
          = (((172 * 256 + 16) * 256 + 0) * 256 + 0) / 2 ^ 20
          ↔ (a = 172 ∧ 16 ≤ b ∧ b ≤ 31) := by omega
      have k4 : (((a * 256 + b) * 256 + c) * 256 + d) / 2 ^ 16
          = (((192 * 256 + 168) * 256 + 0) * 256 + 0) / 2 ^ 16 ↔ (a = 192 ∧ b = 168) := by omega
      have k5 : (((a * 256 + b) * 256 + c) * 256 + d) / 2 ^ 16
          = (((169 * 256 + 254) * 256 + 0) * 256 + 0) / 2 ^ 16 ↔ (a = 169 ∧ b = 254) := by omega
      have k6 : (((a * 256 + b) * 256 + c) * 256 + d) / 2 ^ 22
          = (((100 * 256 + 64) * 256 + 0) * 256 + 0) / 2 ^ 22
          ↔ (a = 100 ∧ 64 ≤ b ∧ b ≤ 127) := by omega
      simp only [privateBlocks, List.any_cons, List.any_nil, Bool.or_eq_true, inBlock,
        decide_eq_true_eq, ipNum, specReserved,
        show (32 : Nat) - 8 = 24 from rfl, show (32 : Nat) - 12 = 20 from rfl,
        show (32 : Nat) - 16 = 16 from rfl, show (32 : Nat) - 10 = 22 from rfl,
        Bool.false_eq_true, or_false]
      rw [k1, k2, k3, k4, k5, k6]
    constructor
    · intro h
      refine ⟨(a, b, c, d), rfl, ?_⟩
      rw [← key]
      simp only [Bool.not_eq_true'] at h
      simp [h]
    · rintro ⟨q', hq', hres⟩
      cases hq'
      rw [← key] at hres
      simp only [Bool.not_eq_true] at hres ⊢
      simp [Bool.not_eq_true'] at hres ⊢
      exact hres

/-! ## Mean latency facts (claim C4) -/

/-- 64-bit wrap-around is the identity inside the representable
range. -/
theorem wrap64_eq {x : Int} (h0 : 0 ≤ x) (h1 : x ≤ 2 ^ 63 - 1) : wrap64 x = x := by
  unfold wrap64
  omega

/-- The summation loop computes the plain sum of the parsed samples
when all parsed values are non-negative and the total fits in 64
bits. -/
theorem pingSum_eq_sum : ∀ (pings : List String) (acc : Int),
    (∀ p ∈ pings, 0 ≤ (goAtoi p).getD 0) →
    0 ≤ acc → acc + (parsedSamples pings).sum ≤ 2 ^ 63 - 1 →
    pingSum pings acc = acc + (parsedSamples pings).sum := by
  intro pings
  induction pings with
  | nil => intro acc _ _ _; simp [pingSum, parsedSamples]
  | cons p ps ih =>
    intro acc hnn hacc hbound
    have hps_nn : ∀ x ∈ parsedSamples ps, (0 : Int) ≤ x := by
      intro x hx
      obtain ⟨p', hp', hgo⟩ := List.mem_filterMap.mp hx
      have := hnn p' (List.mem_cons_of_mem _ hp')
      rw [hgo] at this
      simpa using this
    have hsum_nn : (0 : Int) ≤ (parsedSamples ps).sum := List.sum_nonneg hps_nn
    cases hgo : goAtoi p with
    | none =>
      have hsame : parsedSamples (p :: ps) = parsedSamples ps := by
        simp [parsedSamples, List.filterMap_cons, hgo]
      rw [hsame] at hbound ⊢
      show pingSum (p :: ps) acc = acc + (parsedSamples ps).sum
      unfold pingSum
      rw [hgo]
      exact ih acc (fun x hx => hnn x (List.mem_cons_of_mem _ hx)) hacc hbound
    | some v =>
      have hv : (0 : Int) ≤ v := by
        have := hnn p (List.mem_cons_self _ _)
        rw [hgo] at this
        simpa using this
      have hsame : parsedSamples (p :: ps) = v :: parsedSamples ps := by
        simp [parsedSamples, List.filterMap_cons, hgo]
      rw [hsame] at hbound ⊢
      have hsum : (v :: parsedSamples ps).sum = v + (parsedSamples ps).sum := by
        simp
      rw [hsum] at hbound ⊢
      unfold pingSum
      rw [hgo]
      show pingSum ps (wrap64 (acc + v)) = acc + (v + (parsedSamples ps).sum)
      have hw : wrap64 (acc + v) = acc + v := wrap64_eq (by omega) (by omega)
      rw [hw]
      have := ih (acc + v) (fun x hx => hnn x (List.mem_cons_of_mem _ hx)) (by omega) (by omega)
      rw [this]
      ring

/-- When every sample parses, the parsed-sample list is as long as the
sample list. -/
theorem parsedSamples_length : ∀ (pings : List String),
    (∀ p ∈ pings, (goAtoi p).isSome) →
    (parsedSamples pings).length = pings.length := by
  intro pings
  induction pings with
  | nil => intro _; simp [parsedSamples]
  | cons p ps ih =>
    intro h
    obtain ⟨v, hv⟩ := Option.isSome_iff_exists.mp (h p (List.mem_cons_self _ _))
    have hrec := ih fun x hx => h x (List.mem_cons_of_mem _ hx)
    simp [parsedSamples, List.filterMap_cons, hv]
    simpa [parsedSamples] using hrec

/-- C4 (counterexample): the sample "99999999999999999999" is outside
`strconv.Atoi`'s range and is skipped by the sum but still counted by
the divisor, so the computed mean 5 differs from the arithmetic mean 10
of the successfully parsed samples. -/
theorem claim_C4_counterexample :
    calculateAverage ["99999999999999999999", "10"] = 5 ∧
    specMean ["99999999999999999999", "10"] = 10 ∧ (5 : ℚ) ≠ 10 := by
  have h1 : pingSum ["99999999999999999999", "10"] 0 = 10 := by decide
  have h2 : parsedSamples ["99999999999999999999", "10"] = [10] := by decide
  refine ⟨?_, ?_, by norm_num⟩
  · simp only [calculateAverage, h1]
    norm_num
  · simp only [specMean, h2]
    norm_num

/-- C4 (amended): the computed mean is the sum of the successfully
parsed samples divided by the total number of samples (not by the
number of parsed samples), with 0 for an empty list; when every sample
parses (and the values are non-negative with a sum inside the 64-bit
range) this equals the arithmetic mean of the parsed samples. -/
theorem claim_C4_amended : ∀ (pings : List String),
    (∀ p ∈ pings, 0 ≤ (goAtoi p).getD 0) →
    (parsedSamples pings).sum ≤ 2 ^ 63 - 1 →
    (calculateAverage [] = 0 ∧
     calculateAverage pings =
       (if pings.length = 0 then 0
        else ((parsedSamples pings).sum : ℚ) / (pings.length : ℚ)) ∧
     ((∀ p ∈ pings, (goAtoi p).isSome) → calculateAverage pings = specMean pings)) := by
  intro pings hnn hbound
  have hsum : pingSum pings 0 = (parsedSamples pings).sum := by
    have := pingSum_eq_sum pings 0 hnn le_rfl (by omega)
    simpa using this
  refine ⟨rfl, ?_, ?_⟩
  · simp only [calculateAverage, hsum]
  · intro hall
    have hlen := parsedSamples_length pings hall
    simp only [calculateAverage, specMean, hsum, hlen]

/-- Witness for C4 (amended) at the spec transcript's sample list. -/
theorem claim_C4_amended_witness :
    ((∀ p ∈ (["17", "22", "19"] : List String), 0 ≤ (goAtoi p).getD 0) ∧
     (parsedSamples ["17", "22", "19"]).sum ≤ 2 ^ 63 - 1) ∧
    (calculateAverage [] = 0 ∧
     calculateAverage ["17", "22", "19"] =
       (if (["17", "22", "19"] : List String).length = 0 then 0
        else ((parsedSamples ["17", "22", "19"]).sum : ℚ) /
          ((["17", "22", "19"] : List String).length : ℚ)) ∧
     ((∀ p ∈ (["17", "22", "19"] : List String), (goAtoi p).isSome) →
       calculateAverage ["17", "22", "19"] = specMean ["17", "22", "19"])) :=
  ⟨⟨by decide, by decide⟩, claim_C4_amended ["17", "22", "19"] (by decide) (by decide)⟩

/-! ## Completion counting (claim C5) -/

/-- C5: every execution path of the probe executor increments the
shared completed-counter exactly once, and after all dispatched peers
have run, the counter equals the number of dispatched peers. -/
theorem claim_C5 :
    (∀ (env : ProbeEnv) (r : PingResult) (c : Nat), (pingIP env r c).2.2 = c + 1) ∧
    (∀ l : List (ProbeEnv × PingResult), runAll l 0 = l.length) := by
  have h1 : ∀ (env : ProbeEnv) (r : PingResult) (c : Nat), (pingIP env r c).2.2 = c + 1 := by
    intro env r c
    cases env <;> rfl
  refine ⟨h1, fun l => ?_⟩
  have h2 : ∀ (l : List (ProbeEnv × PingResult)) (c : Nat), runAll l c = c + l.length := by
    intro l
    induction l with
    | nil => intro c; simp [runAll]
    | cons er rest ih =>
      intro c
      unfold runAll
      rw [h1, ih]
      simp
      omega
  simpa using h2 l 0

/-! ## Comparator order facts (claims C1, C7) -/

/-- `listLess` is irreflexive. -/
theorem listLess_irrefl : ∀ l : List Char, listLess l l = false := by
  intro l
  induction l with
  | nil => rfl
  | cons a t ih =>
    show (if a = a then listLess t t else decide (a < a)) = false
    rw [if_pos rfl]
    exact ih

/-- `listLess` is asymmetric. -/
theorem listLess_asymm : ∀ x y : List Char, listLess x y = true → listLess y x = false := by
  intro x
  induction x with
  | nil =>
    intro y h
    cases y with
    | nil => exact absurd h (by simp [listLess])
    | cons b bs => rfl
  | cons a as ih =>
    intro y h
    cases y with
    | nil => exact absurd h (by simp [listLess])
    | cons b bs =>
      rw [show listLess (a :: as) (b :: bs) =
        (if a = b then listLess as bs else decide (a < b)) from rfl] at h
      show (if b = a then listLess bs as else decide (b < a)) = false
      by_cases hab : a = b
      · rw [if_pos hab.symm]
        rw [if_pos hab] at h
        exact ih bs h
      · rw [if_neg (fun hba => hab hba.symm)]
        rw [if_neg hab] at h
        have hlt : a < b := of_decide_eq_true h
        simp [not_lt.mpr (le_of_lt hlt)]

/-- `listLess` is total on distinct lists. -/
theorem listLess_total : ∀ x y : List Char, x ≠ y →
    listLess x y = true ∨ listLess y x = true := by
  intro x
  induction x with
  | nil =>
    intro y h
    cases y with
    | nil => exact absurd rfl h
    | cons b bs => exact Or.inl rfl
  | cons a as ih =>
    intro y h
    cases y with
    | nil => exact Or.inr rfl
    | cons b bs =>
      show (if a = b then listLess as bs else decide (a < b)) = true ∨
        (if b = a then listLess bs as else decide (b < a)) = true
      by_cases hab : a = b
      · rw [if_pos hab, if_pos hab.symm]
        have hne : as ≠ bs := fun habs => h (by rw [hab, habs])
        exact ih bs hne
      · rw [if_neg hab, if_neg (fun hba => hab hba.symm)]
        rcases lt_or_gt_of_ne hab with hlt | hlt
        · exact Or.inl (decide_eq_true hlt)
        · exact Or.inr (decide_eq_true hlt)

/-- `listLess` is transitive. -/
theorem listLess_trans : ∀ x y z : List Char,
    listLess x y = true → listLess y z = true → listLess x z = true := by
  intro x
  induction x with
  | nil =>
    intro y z hxy hyz
    cases y with
    | nil => exact absurd hxy (by simp [listLess])
    | cons b bs =>
      cases z with
      | nil => exact absurd hyz (by simp [listLess])
      | cons c cs => rfl
  | cons a as ih =>
    intro y z hxy hyz
    cases y with
    | nil => exact absurd hxy (by simp [listLess])
    | cons b bs =>
      cases z with
      | nil => exact absurd hyz (by simp [listLess])
      | cons c cs =>
        rw [show listLess (a :: as) (b :: bs) =
          (if a = b then listLess as bs else decide (a < b)) from rfl] at hxy
        rw [show listLess (b :: bs) (c :: cs) =
          (if b = c then listLess bs cs else decide (b < c)) from rfl] at hyz
        show (if a = c then listLess as cs else decide (a < c)) = true
        by_cases hab : a = b <;> by_cases hbc : b = c
        · rw [if_pos (hab.trans hbc)]
          rw [if_pos hab] at hxy
          rw [if_pos hbc] at hyz
          exact ih bs cs hxy hyz
        · have hac : a ≠ c := fun h => hbc (hab ▸ h)
          rw [if_neg hac]
          rw [if_neg hbc] at hyz
          have := of_decide_eq_true hyz
          exact decide_eq_true (hab ▸ this)
        · have hlt : a < b := of_decide_eq_true (by rw [if_neg hab] at hxy; exact hxy)
          have hac : a < c := hbc ▸ hlt
          rw [if_neg (ne_of_lt hac)]
          exact decide_eq_true hac
        · have h1 : a < b := of_decide_eq_true (by rw [if_neg hab] at hxy; exact hxy)
          have h2 : b < c := of_decide_eq_true (by rw [if_neg hbc] at hyz; exact hyz)
          have hac : a < c := lt_trans h1 h2
          rw [if_neg (ne_of_lt hac)]
          exact decide_eq_true hac

/-- Distinct strings compare strictly in one direction under Go string
order. -/
theorem strLess_total (a b : String) (h : a ≠ b) :
    strLess a b = true ∨ strLess b a = true := by
  apply listLess_total
  intro hd
  apply h
  cases a
  cases b
  exact congrArg String.mk hd

/-- The comparator is asymmetric. -/
theorem pingLess_asymm (a b : PingResult) (h : pingLess a b = true) :
    pingLess b a = false := by
  unfold pingLess at h ⊢
  by_cases hg : a.group = b.group
  · rw [if_neg (fun hne => hne hg)] at h
    rw [if_neg (fun hne => hne hg.symm)]
    have := of_decide_eq_true h
    simp [not_lt.mpr (le_of_lt this)]
  · rw [if_pos hg] at h
    rw [if_pos (fun heq => hg heq.symm)]
    exact listLess_asymm _ _ h

/-- The non-strict comparator is total. -/
theorem pingLe_total (a b : PingResult) : pingLe a b = true ∨ pingLe b a = true := by
  unfold pingLe
  cases hba : pingLess b a
  · exact Or.inl rfl
  · have := pingLess_asymm b a hba
    rw [this]
    exact Or.inr rfl

/-- The non-strict comparator is transitive. -/
theorem pingLe_trans (a b c : PingResult) (hab : pingLe a b = true)
    (hbc : pingLe b c = true) : pingLe a c = true := by
  unfold pingLe at hab hbc ⊢
  have hba : pingLess b a = false := by
    cases h : pingLess b a
    · rfl
    · rw [h] at hab; exact absurd hab (by simp)
  have hcb : pingLess c b = false := by
    cases h : pingLess c b
    · rfl
    · rw [h] at hbc; exact absurd hbc (by simp)
  suffices hca : pingLess c a = false by rw [hca]; rfl
  by_contra hcc
  have hca : pingLess c a = true := by
    cases h : pingLess c a
    · exact absurd h hcc
    · rfl
  unfold pingLess at hba hcb hca
  by_cases h1 : c.group = a.group
  · rw [if_neg (fun hne => hne h1)] at hca
    have hvca := of_decide_eq_true hca
    by_cases h2 : b.group = a.group
    · rw [if_neg (fun hne => hne h2)] at hba
      have h3 : b.group = c.group := h2.trans h1.symm
      rw [if_neg (fun hne => hne h3.symm)] at hcb
      have hab' : ¬(calculateAverage b.pings < calculateAverage a.pings) := by
        simpa using hba
      have hbc' : ¬(calculateAverage c.pings < calculateAverage b.pings) := by
        simpa using hcb
      exact hab' (lt_of_le_of_lt (not_lt.mp hbc') hvca)
    · rw [if_pos h2] at hba
      have h4 : c.group ≠ b.group := fun heq => h2 (heq.symm.trans h1)
      rw [if_pos h4] at hcb
      rcases strLess_total b.group a.group h2 with hs | hs
      · rw [hs] at hba; exact Bool.noConfusion hba
      · rw [h1] at hcb
        rw [hs] at hcb
        exact Bool.noConfusion hcb
  · rw [if_pos h1] at hca
    by_cases h2 : b.group = a.group
    · have h5 : c.group ≠ b.group := fun heq => h1 (heq.trans h2)
      rw [if_pos h5] at hcb
      rw [h2] at hcb
      rw [hca] at hcb
      exact Bool.noConfusion hcb
    · rw [if_pos h2] at hba
      by_cases h3 : b.group = c.group
      · rw [← h3] at hca
        rcases strLess_total b.group a.group h2 with hs | hs
        · rw [hs] at hba; exact Bool.noConfusion hba
        · rw [show strLess b.group a.group = listLess b.group.data a.group.data from rfl] at hca
          rw [show strLess a.group b.group = listLess a.group.data b.group.data from rfl] at hs
          have := listLess_asymm _ _ hs
          rw [this] at hca
          exact Bool.noConfusion hca
      · rw [if_pos (fun heq => h3 heq.symm)] at hcb
        have hsab : strLess a.group b.group = true := by
          rcases strLess_total a.group b.group (fun heq => h2 heq.symm) with hs | hs
          · exact hs
          · rw [hs] at hba
            exact Bool.noConfusion hba
        have hsbc : strLess b.group c.group = true := by
          rcases strLess_total b.group c.group h3 with hs | hs
          · exact hs
          · rw [hs] at hcb
            exact Bool.noConfusion hcb
        have hsac : listLess a.group.data c.group.data = true :=
          listLess_trans _ _ _ hsab hsbc
        have hfalse := listLess_asymm _ _ hsac
        rw [show strLess c.group a.group = listLess c.group.data a.group.data from rfl] at hca
        rw [hfalse] at hca
        exact Bool.noConfusion hca

/-! ## Group label facts (claim C1) -/

/-- Code points of the letters used for up to 26 groups are valid. -/
theorem letter_isValidChar {n : Nat} (h : n ≤ 26) : (64 + n).isValidChar :=
  Or.inl (by omega)

/-- `Char.ofNat` round-trips through `toNat` on valid code points. -/
theorem toNat_ofNat_valid {n : Nat} (h : n.isValidChar) : (Char.ofNat n).toNat = n := by
  simp [Char.ofNat, dif_pos h, Char.ofNatAux, Char.toNat, UInt32.toNat, BitVec.toNat_ofNatLt]

/-- `Char.ofNat` is order-preserving on valid code points. -/
theorem ofNat_lt_valid {a b : Nat} (ha : a.isValidChar) (hb : b.isValidChar) :
    (Char.ofNat a < Char.ofNat b) ↔ a < b := by
  rw [Char.lt_iff_val_lt_val]
  simp [Char.ofNat, dif_pos ha, dif_pos hb, Char.ofNatAux, UInt32.lt_def, BitVec.lt_def]

/-- `Char.ofNat` is injective on valid code points. -/
theorem ofNat_inj_valid {a b : Nat} (ha : a.isValidChar) (hb : b.isValidChar)
    (h : Char.ofNat a = Char.ofNat b) : a = b := by
  have := congrArg Char.toNat h
  rwa [toNat_ofNat_valid ha, toNat_ofNat_valid hb] at this

/-- The character list behind a non-empty group label. -/
theorem ltr_data (n c : Nat) (h : n ≠ 0) :
    (numberToLetterWithCount n c).data =
      Char.ofNat (64 + n) :: (" (" ++ Nat.repr c ++ ")").data := by
  unfold numberToLetterWithCount
  rw [if_neg h]

/-- A group label for a positive identifier is never empty. -/
theorem ltr_ne_empty (n c : Nat) (h : n ≠ 0) : numberToLetterWithCount n c ≠ "" := by
  intro habs
  have hd := congrArg String.data habs
  rw [ltr_data n c h] at hd
  exact List.noConfusion hd

/-- The numeric identifier is recovered from the label's letter. -/
theorem groupNumOf_ltr (r : PingResult) (n c : Nat) (h1 : 1 ≤ n) (h2 : n ≤ 26)
    (hg : r.group = numberToLetterWithCount n c) : groupNumOf r = n := by
  unfold groupNumOf
  rw [hg, ltr_data n c (by omega)]
  show (Char.ofNat (64 + n)).toNat - 64 = n
  rw [toNat_ofNat_valid (letter_isValidChar h2)]
  omega

/-- Labels with distinct identifiers in the letter range are distinct
strings. -/
theorem ltr_ne (n₁ c₁ n₂ c₂ : Nat) (h₁ : 1 ≤ n₁) (h₁b : n₁ ≤ 26) (h₂ : 1 ≤ n₂)
    (h₂b : n₂ ≤ 26) (hne : n₁ ≠ n₂) :
    numberToLetterWithCount n₁ c₁ ≠ numberToLetterWithCount n₂ c₂ := by
  intro habs
  have hd := congrArg String.data habs
  rw [ltr_data n₁ c₁ (by omega), ltr_data n₂ c₂ (by omega)] at hd
  have hh : Char.ofNat (64 + n₁) = Char.ofNat (64 + n₂) := by
    injection hd
  have := ofNat_inj_valid (letter_isValidChar h₁b) (letter_isValidChar h₂b) hh
  omega

/-- String order on labels with distinct in-range identifiers is the
numeric order of the identifiers. -/
theorem strLess_ltr (n₁ c₁ n₂ c₂ : Nat) (h₁ : 1 ≤ n₁) (h₁b : n₁ ≤ 26) (h₂ : 1 ≤ n₂)
    (h₂b : n₂ ≤ 26) (hne : n₁ ≠ n₂) :
    strLess (numberToLetterWithCount n₁ c₁) (numberToLetterWithCount n₂ c₂) =
      decide (n₁ < n₂) := by
  unfold strLess
  rw [ltr_data n₁ c₁ (by omega), ltr_data n₂ c₂ (by omega)]
  show (if Char.ofNat (64 + n₁) = Char.ofNat (64 + n₂) then _ else
    decide (Char.ofNat (64 + n₁) < Char.ofNat (64 + n₂))) = _
  rw [if_neg (fun hh => hne (by
    have := ofNat_inj_valid (letter_isValidChar h₁b) (letter_isValidChar h₂b) hh
    omega))]
  have hiff := ofNat_lt_valid (letter_isValidChar h₁b) (letter_isValidChar h₂b)
  by_cases hlt : n₁ < n₂
  · rw [decide_eq_true hlt, decide_eq_true (hiff.mpr (by omega))]
  · have : ¬(Char.ofNat (64 + n₁) < Char.ofNat (64 + n₂)) := fun hc => hlt (by
      have := hiff.mp hc
      omega)
    rw [decide_eq_false this, decide_eq_false hlt]

/-- Every peer leaving the grouping stage has either an empty label or
a label for an identifier between 1 and the number of distinct eligible
egress IPs. -/
theorem assignGroups_wf (ps : List PingResult) (hg : ∀ r ∈ ps, r.group = "") :
    ∀ x ∈ assignGroups ps, x.group = "" ∨
      ∃ n c, 1 ≤ n ∧ n ≤ (firstSeen (ps.map (·.externalIP))).length ∧
        x.group = numberToLetterWithCount n c := by
  intro x hx
  have heq : assignGroups ps = ps.map (fun r =>
      if eligibleIP r.externalIP then
        { r with group := (numberToLetterWithCount
            ((lookupA (groupMapOf (ps.map (·.externalIP))) r.externalIP).getD 0)
            (countEligible ps r.externalIP)) }
      else r) := by
    unfold assignGroups
    rw [assignLoop_eq]
    rfl
  rw [heq] at hx
  obtain ⟨r, hr, hfr⟩ := List.mem_map.mp hx
  by_cases he : eligibleIP r.externalIP = true
  · right
    obtain ⟨n, hn, h1, h2⟩ := lookupA_groupMapOf_elig (ps.map (·.externalIP)) r.externalIP
      (List.mem_map_of_mem _ hr) he
    refine ⟨n, countEligible ps r.externalIP, h1, h2, ?_⟩
    rw [← hfr, if_pos he]
    show numberToLetterWithCount
      ((lookupA (groupMapOf (ps.map (·.externalIP))) r.externalIP).getD 0)
      (countEligible ps r.externalIP) = _
    rw [hn]
    rfl
  · rw [← hfr, if_neg he]
    exact Or.inl (hg r hr)

/-- A string with an empty character list is the empty string. -/
theorem string_of_data_nil (s : String) (h : s.data = []) : s = "" := by
  cases s
  simp only at h
  rw [h]

/-- C1 (counterexample): in a two-peer run with one grouped and one
ungrouped peer, the ungrouped peer (empty group label) sorts first,
before the grouped peer, refuting "peers with no group identifier sort
after all grouped peers". -/
theorem claim_C1_counterexample :
    (rankPeers [{ ip := "100.0.0.1", externalIP := "8.8.8.8", pings := ["10"] },
                { ip := "100.0.0.2", pings := ["1"] }]).map (fun r => (r.ip, r.group)) =
      [("100.0.0.2", ""), ("100.0.0.1", "A (1)")] := by
  decide

/-- C1 (amended): the final report is a permutation of the grouped peer
list sorted by the comparator; ungrouped peers (empty label) sort
before all grouped peers, peers in the same group are in ascending mean
order (a peer with zero samples has mean 0), and grouped peers appear
in ascending identifier order (for runs with at most 26 groups, the
range of the letter labels). -/
theorem claim_C1_amended : ∀ (ps : List PingResult),
    (∀ r ∈ ps, r.group = "") →
    (firstSeen (ps.map (·.externalIP))).length ≤ 26 →
    ((rankPeers ps).Perm (assignGroups ps) ∧
     calculateAverage [] = 0 ∧
     (rankPeers ps).Pairwise (fun a b =>
       pingLe a b = true ∧
       (a.group = "" ∨ b.group ≠ "") ∧
       (a.group = b.group → calculateAverage a.pings ≤ calculateAverage b.pings) ∧
       (a.group ≠ "" → b.group ≠ "" → groupNumOf a ≠ groupNumOf b →
         groupNumOf a < groupNumOf b))) := by
  intro ps hg h26
  haveI htot : IsTotal PingResult (fun a b => pingLe a b = true) := ⟨pingLe_total⟩
  haveI htrans : IsTrans PingResult (fun a b => pingLe a b = true) :=
    ⟨fun a b c => pingLe_trans a b c⟩
  have hperm : (rankPeers ps).Perm (assignGroups ps) :=
    List.perm_insertionSort _ _
  refine ⟨hperm, rfl, ?_⟩
  have hsorted : (rankPeers ps).Pairwise (fun a b => pingLe a b = true) :=
    List.sorted_insertionSort _ _
  refine List.Pairwise.imp_of_mem ?_ hsorted
  intro a b ha hb hle
  have ha' : a ∈ assignGroups ps := hperm.mem_iff.mp ha
  have hb' : b ∈ assignGroups ps := hperm.mem_iff.mp hb
  have hwfa := assignGroups_wf ps hg a ha'
  have hwfb := assignGroups_wf ps hg b hb'
  refine ⟨hle, ?_, ?_, ?_⟩
  · by_cases hbg : b.group = ""
    · left
      by_contra hag
      have hne : b.group ≠ a.group := by
        rw [hbg]
        exact fun h => hag h.symm
      have hless : pingLess b a = true := by
        unfold pingLess
        rw [if_pos hne, hbg]
        show listLess ("" : String).data a.group.data = true
        cases hd : a.group.data with
        | nil => exact absurd (string_of_data_nil _ hd) hag
        | cons c cs => rfl
      unfold pingLe at hle
      rw [hless] at hle
      exact Bool.noConfusion hle
    · exact Or.inr hbg
  · intro hgeq
    unfold pingLe pingLess at hle
    rw [if_neg (show ¬b.group ≠ a.group from fun hne => hne hgeq.symm)] at hle
    have hnl : ¬(calculateAverage b.pings < calculateAverage a.pings) := by
      simpa using hle
    exact not_lt.mp hnl
  · intro hag hbg hnum
    rcases hwfa with ha0 | ⟨n₁, c₁, hn₁, hb₁, hga⟩
    · exact absurd ha0 hag
    rcases hwfb with hb0 | ⟨n₂, c₂, hn₂, hb₂, hgb⟩
    · exact absurd hb0 hbg
    have hna : groupNumOf a = n₁ := groupNumOf_ltr a n₁ c₁ hn₁ (le_trans hb₁ h26) hga
    have hnb : groupNumOf b = n₂ := groupNumOf_ltr b n₂ c₂ hn₂ (le_trans hb₂ h26) hgb
    rw [hna, hnb] at hnum ⊢
    have hne12 : n₂ ≠ n₁ := fun h => hnum h.symm
    have hgne : b.group ≠ a.group := by
      rw [hga, hgb]
      exact ltr_ne n₂ c₂ n₁ c₁ hn₂ (le_trans hb₂ h26) hn₁ (le_trans hb₁ h26) hne12
    unfold pingLe pingLess at hle
    rw [if_pos hgne, hgb, hga,
      strLess_ltr n₂ c₂ n₁ c₁ hn₂ (le_trans hb₂ h26) hn₁ (le_trans hb₁ h26) hne12] at hle
    have hnl : ¬(n₂ < n₁) := by simpa using hle
    omega

/-- Witness for C1 (amended) at the two-peer counterexample run. -/
theorem claim_C1_amended_witness :
    ((∀ r ∈ [({ ip := "100.0.0.1", externalIP := "8.8.8.8", pings := ["10"] } : PingResult),
        { ip := "100.0.0.2", pings := ["1"] }], r.group = "") ∧
     (firstSeen (([({ ip := "100.0.0.1", externalIP := "8.8.8.8", pings := ["10"] } : PingResult),
        { ip := "100.0.0.2", pings := ["1"] }]).map (·.externalIP))).length ≤ 26) ∧
    ((rankPeers [({ ip := "100.0.0.1", externalIP := "8.8.8.8", pings := ["10"] } : PingResult),
        { ip := "100.0.0.2", pings := ["1"] }]).Perm
      (assignGroups [({ ip := "100.0.0.1", externalIP := "8.8.8.8", pings := ["10"] } : PingResult),
        { ip := "100.0.0.2", pings := ["1"] }]) ∧
     calculateAverage [] = 0 ∧
     (rankPeers [({ ip := "100.0.0.1", externalIP := "8.8.8.8", pings := ["10"] } : PingResult),
        { ip := "100.0.0.2", pings := ["1"] }]).Pairwise (fun a b =>
       pingLe a b = true ∧
       (a.group = "" ∨ b.group ≠ "") ∧
       (a.group = b.group → calculateAverage a.pings ≤ calculateAverage b.pings) ∧
       (a.group ≠ "" → b.group ≠ "" → groupNumOf a ≠ groupNumOf b →
         groupNumOf a < groupNumOf b))) :=
  ⟨⟨by decide, by decide⟩,
    claim_C1_amended [{ ip := "100.0.0.1", externalIP := "8.8.8.8", pings := ["10"] },
      { ip := "100.0.0.2", pings := ["1"] }] (by decide) (by decide)⟩

/-! ## Arrival-order independence (claim C7) -/

/-- After an arrival sequence covering peer `i`, slot `i` holds peer
`i`'s probe result, regardless of where in the sequence it arrived. -/
theorem applyArrivals_of_mem {n : Nat} (base : Fin n → PingResult)
    (env : Fin n → ProbeEnv) : ∀ (arr : List (Fin n)) (i : Fin n), i ∈ arr →
    applyArrivals base env arr i = (pingIP (env i) (base i) 0).1 := by
  intro arr
  induction arr with
  | nil => intro i h; exact absurd h (List.not_mem_nil i)
  | cons j rest ih =>
    intro i h
    show Function.update (applyArrivals base env rest) j (pingIP (env j) (base j) 0).1 i = _
    by_cases hij : i = j
    · subst hij
      rw [Function.update_same]
    · rw [Function.update_noteq hij]
      rcases List.mem_cons.mp h with h' | h'
      · exact absurd h' hij
      · exact ih i h'

/-- C7: for a fixed peer set and fixed per-peer probe outcomes, any two
runs that differ only in the order outcomes arrive produce the same
final report. -/
theorem claim_C7 : ∀ (n : Nat) (base : Fin n → PingResult) (env : Fin n → ProbeEnv)
    (arr1 arr2 : List (Fin n)),
    (∀ i, i ∈ arr1) → (∀ i, i ∈ arr2) →
    reportAfter base env arr1 = reportAfter base env arr2 := by
  intro n base env arr1 arr2 h1 h2
  unfold reportAfter
  have hfun : applyArrivals base env arr1 = applyArrivals base env arr2 := by
    funext i
    rw [applyArrivals_of_mem base env arr1 i (h1 i),
      applyArrivals_of_mem base env arr2 i (h2 i)]
  rw [hfun]

/-- Witness for C7 at a two-peer run with the two opposite arrival
orders. -/
theorem claim_C7_witness :
    ((∀ i : Fin 2, i ∈ ([0, 1] : List (Fin 2))) ∧
     (∀ i : Fin 2, i ∈ ([1, 0] : List (Fin 2)))) ∧
    reportAfter (fun _ : Fin 2 => ({} : PingResult)) (fun _ => ProbeEnv.cmdError) [0, 1] =
      reportAfter (fun _ : Fin 2 => ({} : PingResult)) (fun _ => ProbeEnv.cmdError) [1, 0] :=
  ⟨⟨by decide, by decide⟩,
    claim_C7 2 (fun _ => {}) (fun _ => ProbeEnv.cmdError) [0, 1] [1, 0]
      (by decide) (by decide)⟩

end TsPing


